import Mathlib

/-!
# The ordered in-memory product store (`internal/service/in_memory2`)

A shallow embedding of `internal/service/in_memory2/service.go` and of the
record type of `internal/model/db.go`, followed by theorems about it.

Conventions of the embedding

* A Go `string` is a Lean `String`; Go compares strings bytewise and Lean by
  code point, and the two orders agree on UTF-8 text.
* A Go `float64` is its IEEE-754 bit pattern, a natural number below `2^64`.
  The store only copies prices and compares them with `0`; the comparison
  `x != 0` is false exactly for the two patterns `+0` and `-0`.
* A Go slice is a `List`; `s.products` is threaded through the operations as
  explicit state.  The mutex guards against concurrent callers and has no
  effect on a single call, so it is not part of the sequential state.
  Where it matters whether a slice is nil, `Slice` keeps that apart from the
  elements; where it matters which backing array a slice points to, `Mem`
  keeps the arrays in a heap, and `Mem.step_refines` ties it to the lists;
  where the lock itself is the subject, `Locked` carries it as state.
* Functions of the Go standard library that the code calls
  (`strconv.ParseFloat`, `strconv.FormatFloat`, `strconv.Quote`,
  `json.Marshal`) are inputs of the embedded functions.
* Every operation returns an `Option`: `none` stands for the absence of a
  normal return, that is a run-time panic (index or slice bound out of range)
  or a binary search that used up its iteration bound.  The theorems show the
  operations return `some`.
* `Add` draws its id, name, price and timestamp from generators; the drawn
  record is an input of the embedded `Add`.
-/

namespace InMemory2

/-! ## Data model -/

/-- The error values the store returns: the three of `internal/model/errors.go`,
`sql.ErrNoRows`, and the `errors.New("product already exists")` of `Add`. -/
inductive Error where
  | ErrorNoRowsUpdated
  | ErrorNoRowsDeleted
  | ErrorNoUpdateParams
  | ErrNoRows
  | productAlreadyExists
  deriving DecidableEq, Repr

/-- The message carried by each error value. -/
def Error.message : Error → String
  | .ErrorNoRowsUpdated => "no rows updated"
  | .ErrorNoRowsDeleted => "no rows deleted"
  | .ErrorNoUpdateParams => "no parameters were passed to be updated"
  | .ErrNoRows => "sql: no rows in result set"
  | .productAlreadyExists => "product already exists"

/-- The record `model.Product`.  `Price` is the bit pattern of the `float64`,
`CreatedAt` the `uint32` timestamp. -/
structure Product where
  ID : String
  Name : String
  Price : Nat
  CreatedAt : Nat
  deriving DecidableEq, Repr

/-- The Go zero value `model.Product{}`. -/
def Product.zero : Product := ⟨"", "", 0, 0⟩

/-- The Go comparison `x == 0` on a `float64` given by its bit pattern: true
for `+0` (all bits clear) and `-0` (only the sign bit, bit 63, set). -/
def f64IsZero (bits : Nat) : Bool := bits % 2 ^ 63 == 0

/-- The store `Service`: the slice `products` (the mutex is not state of a
sequential run). -/
structure Service where
  products : List Product
  deriving DecidableEq, Repr

/-- The constructor `New`: `&Service{}`, no records. -/
def New : Service := ⟨[]⟩

/-! ## Slice primitives -/

/-- The loop of Go's `sort.Search`: `for i < j { h := int(uint(i+j) >> 1); if
!f(h) { i = h + 1 } else { j = h } }; return i`.  The predicate may panic
(`none`).  The first argument bounds the number of iterations; the loop test
comes first, so a loop that is finished returns `i` also when the bound is
used up, and only a loop cut short gives `none`. -/
def searchLoop (f : Nat → Option Bool) : Nat → Nat → Nat → Option Nat
  | 0, i, j => if i < j then none else some i
  | fuel + 1, i, j =>
    if i < j then
      let h := (i + j) / 2
      match f h with
      | none => none
      | some false => searchLoop f fuel (h + 1) j
      | some true => searchLoop f fuel i h
    else some i

/-- Go's `sort.Search(n, f)`: the loop started at `i, j := 0, n`.  The interval
`j - i` shrinks in every iteration, so `n` iterations are enough. -/
def Search (n : Nat) (f : Nat → Option Bool) : Option Nat :=
  searchLoop f n 0 n

/-- Go's `copy(dst, src)` on the contents of two slices: the first
`min(len(dst), len(src))` elements of `dst` are replaced by those of `src`. -/
def copySlice {α : Type} (dst src : List α) : List α :=
  src.take (min dst.length src.length) ++ dst.drop (min dst.length src.length)

/-- The assignment `xs[i] = v`; it panics when `i` is out of range. -/
def setIndex {α : Type} (xs : List α) (i : Nat) (v : α) : Option (List α) :=
  if i < xs.length then some (xs.set i v) else none

/-! ## The operations of `Service` -/

/-- `Service.findIndex`: binary search for the first record whose id is `>= id`,
and whether that record has exactly this id. -/
def Service.findIndex (s : Service) (id : String) : Option (Nat × Bool) :=
  match Search s.products.length
      (fun i => (s.products[i]?).map (fun p => decide (p.ID ≥ id))) with
  | none => none
  | some i =>
    if i < s.products.length then
      match s.products[i]? with
      | none => none
      | some p => if p.ID = id then some (i, true) else some (i, false)
    else some (i, false)

/-- `Service.Add`, with the generated record `val` as input.  Returns the pair
`(id, err)` and the store afterwards. -/
def Service.Add (s : Service) (val : Product) :
    Option ((String × Option Error) × Service) :=
  match s.findIndex val.ID with
  | none => none
  | some (_, true) => some (("", some Error.productAlreadyExists), s)
  | some (i, false) =>
    -- s.products = append(s.products, model.Product{})
    let xs := s.products ++ [Product.zero]
    -- copy(s.products[i+1:], s.products[i:])
    if i + 1 ≤ xs.length then
      let ys := xs.take (i + 1) ++ copySlice (xs.drop (i + 1)) (xs.drop i)
      -- s.products[i] = val
      match setIndex ys i val with
      | none => none
      | some zs => some ((val.ID, none), ⟨zs⟩)
    else none

/-- `Service.Update`.  Returns the error and the store afterwards. -/
def Service.Update (s : Service) (val : Product) : Option (Option Error × Service) :=
  match s.findIndex val.ID with
  | none => none
  | some (_, false) => some (some Error.ErrorNoRowsUpdated, s)
  | some (i, true) =>
    match s.products[i]? with
    | none => none
    | some newVal =>
      if val.Name ≠ "" ∧ ¬ f64IsZero val.Price then
        (setIndex s.products i { newVal with Price := val.Price, Name := val.Name }).map
          (fun xs => (none, ⟨xs⟩))
      else if ¬ f64IsZero val.Price then
        (setIndex s.products i { newVal with Price := val.Price }).map
          (fun xs => (none, ⟨xs⟩))
      else if val.Name ≠ "" then
        (setIndex s.products i { newVal with Name := val.Name }).map
          (fun xs => (none, ⟨xs⟩))
      else some (some Error.ErrorNoUpdateParams, s)

/-- `Service.Delete`.  Returns the error and the store afterwards. -/
def Service.Delete (s : Service) (id : String) : Option (Option Error × Service) :=
  match s.findIndex id with
  | none => none
  | some (_, false) => some (some Error.ErrorNoRowsDeleted, s)
  | some (i, true) =>
    -- s.products = append(s.products[:i], s.products[i+1:]...)
    if i + 1 ≤ s.products.length then
      some (none, ⟨s.products.take i ++ s.products.drop (i + 1)⟩)
    else none

/-- `Service.Get`.  Returns the pair `(product, err)` and the store afterwards. -/
def Service.Get (s : Service) (id : String) :
    Option ((Product × Option Error) × Service) :=
  match s.findIndex id with
  | none => none
  | some (_, false) => some ((Product.zero, some Error.ErrNoRows), s)
  | some (i, true) =>
    match s.products[i]? with
    | none => none
    | some p => some ((p, none), s)

/-- `Service.GetAll`: `out := make([]model.Product, len(s.products))`, then
`copy(out, s.products)`.  Returns `(out, err)` and the store afterwards. -/
def Service.GetAll (s : Service) : Option ((List Product × Option Error) × Service) :=
  let out := List.replicate s.products.length Product.zero
  some ((copySlice out s.products, none), s)

/-! ## Runs of the store -/

/-- One call of a mutating or reading operation, with its arguments. -/
inductive Op where
  | add (val : Product)
  | update (val : Product)
  | delete (id : String)
  | get (id : String)
  | getAll
  deriving DecidableEq, Repr

/-- The store after one call (the returned values are dropped). -/
def Service.step (s : Service) : Op → Option Service
  | .add val => (s.Add val).map Prod.snd
  | .update val => (s.Update val).map Prod.snd
  | .delete id => (s.Delete id).map Prod.snd
  | .get id => (s.Get id).map Prod.snd
  | .getAll => s.GetAll.map Prod.snd

/-- The store after a sequence of calls, left to right. -/
def Service.run (s : Service) : List Op → Option Service
  | [] => some s
  | op :: ops => (s.step op).bind (fun t => t.run ops)

/-- A store state is reachable when some sequence of calls produces it from
the empty store of `New`. -/
def Reachable (s : Service) : Prop := ∃ ops, New.run ops = some s

/-- Strictly ascending id order. -/
def SortedByID (xs : List Product) : Prop := xs.Pairwise (fun a b => a.ID < b.ID)

/-- The id occurs in the list of records. -/
def HasID (xs : List Product) (id : String) : Prop := ∃ p ∈ xs, p.ID = id

/-- The lower-bound position of `id`: the number of records whose id is below it. -/
def lowerBound (xs : List Product) (id : String) : Nat :=
  xs.countP (fun p => decide (p.ID < id))

/-- The record a successful `Update` with argument `val` leaves in place of
`old`: the supplied name when it is non-empty, the supplied price when it is
non-zero, and the id and timestamp of `old`. -/
def updatedRecord (old val : Product) : Product :=
  { ID := old.ID
    Name := if val.Name = "" then old.Name else val.Name
    Price := if f64IsZero val.Price then old.Price else val.Price
    CreatedAt := old.CreatedAt }

/-! ## Sequences of `Add` calls -/

/-- A sequence of `Add` calls, one for each generated record of the list: the
pairs `(id, err)` the calls return, in call order, and the store afterwards. -/
def Service.addAll (s : Service) :
    List Product → Option (List (String × Option Error) × Service)
  | [] => some ([], s)
  | val :: vals =>
    match s.Add val with
    | none => none
    | some (r, t) =>
      match t.addAll vals with
      | none => none
      | some (rs, u) => some (r :: rs, u)

/-- The ids returned by those calls of a sequence that returned no error. -/
def returnedIDs (rs : List (String × Option Error)) : List String :=
  (rs.filter (fun r => r.2.isNone)).map Prod.fst

/-! ## Slices with their nil-ness -/

/-- A Go slice value as its receiver sees it: `none` is the nil slice,
`some xs` a non-nil slice holding `xs`. -/
abbrev Slice (α : Type) := Option (List α)

/-- The elements of a slice; the nil slice has none. -/
def Slice.elems {α : Type} : Slice α → List α
  | none => []
  | some xs => xs

/-- Go's `make([]T, n)`: a non-nil slice of `n` zero values. -/
def makeSlice {α : Type} (n : Nat) (z : α) : Slice α := some (List.replicate n z)

/-- Go's `copy(dst, src)` seen on the slice `dst`: the contents change as in
`copySlice`, the nil-ness does not. -/
def copyTo {α : Type} (dst : Slice α) (src : List α) : Slice α :=
  dst.map (fun d => copySlice d src)

/-- Go's `append(s, x)`: the result is never nil. -/
def appendOne {α : Type} (s : Slice α) (x : α) : Slice α := some (s.elems ++ [x])

/-- `Service.GetAll` of `in_memory2` with the nil-ness of the slice it returns:
`out := make([]model.Product, len(s.products)); copy(out, s.products);
return out, nil`. -/
def Service.GetAllSlice (s : Service) : Slice Product × Option Error :=
  let out := makeSlice s.products.length Product.zero
  (copyTo out s.products, none)

end InMemory2

namespace InMemory

open InMemory2

/-- `Service.GetAll` of the memdb-backed `in_memory` store.  The call
`tx.Get(model.TableName, "id")` belongs to the memdb library; its outcome is
the input: either the library's error or the objects the iterator yields.
`var ret []model.Product; for obj := it.Next(); obj != nil; obj = it.Next() {
ret = append(ret, *obj.(*model.Product)) }; return ret, nil`. -/
def GetAll {E : Type} (txGet : Except E (List Product)) : Slice Product × Option E :=
  match txGet with
  | .error err => (none, some err)
  | .ok objs => (objs.foldl (fun ret obj => appendOne ret obj) none, none)

end InMemory

namespace InMemory2

/-! ## The store in memory: backing arrays and slice headers

The operations once more, one level down: a slice is a header (address of a
backing array, length) and the arrays live in a heap, so that two slices can
share an array.  `s.products` always starts at the first element of its
array, since the store only reslices it as `s.products[:i]`. -/

/-- A slice header as a caller holds it: the address of the backing array and
the length. -/
structure SliceRef where
  addr : Nat
  len : Nat
  deriving DecidableEq, Repr

/-- The memory of a store: the backing arrays allocated so far (the position in
the list is the address) and the header of `s.products`; `ptr = none` is the
nil slice. -/
structure Mem where
  heap : List (List Product)
  ptr : Option Nat
  len : Nat
  deriving DecidableEq, Repr

/-- The memory after `New`: nothing allocated, `s.products` nil. -/
def Mem.New : Mem := ⟨[], none, 0⟩

/-- The backing array of `s.products`; its length is `cap(s.products)`. -/
def Mem.array (m : Mem) : List Product :=
  match m.ptr with
  | none => []
  | some a => m.heap.getD a []

/-- The elements of `s.products`: the first `len` elements of its array. -/
def Mem.contents (m : Mem) : List Product := m.array.take m.len

/-- The elements a caller reads through a slice header. -/
def Mem.read (m : Mem) (r : SliceRef) : List Product := (m.heap.getD r.addr []).take r.len

/-- A write through `s.products` within its capacity: the first elements of
the backing array become `view`, the rest of the array stays, and
`len(s.products)` becomes the length of `view`. -/
def Mem.store (m : Mem) (view : List Product) : Mem :=
  match m.ptr with
  | none => { m with len := view.length }
  | some a =>
    { heap := m.heap.set a (view ++ m.array.drop view.length)
      ptr := some a
      len := view.length }

/-- Go's `s.products = append(s.products, x)`.  With spare capacity the element
is written into the backing array; without, a new array is allocated that
holds the old elements, `x`, and `growth (len + 1)` spare elements (how much
spare capacity the runtime adds is left open). -/
def Mem.append (m : Mem) (growth : Nat → Nat) (x : Product) : Mem :=
  if m.len < m.array.length then m.store (m.contents ++ [x])
  else
    { heap := m.heap ++ [m.contents ++ [x] ++ List.replicate (growth (m.len + 1)) Product.zero]
      ptr := some m.heap.length
      len := m.len + 1 }

/-- `Service.Add` on the memory. -/
def Mem.Add (m : Mem) (growth : Nat → Nat) (val : Product) :
    Option ((String × Option Error) × Mem) :=
  match (Service.mk m.contents).findIndex val.ID with
  | none => none
  | some (_, true) => some (("", some Error.productAlreadyExists), m)
  | some (i, false) =>
    -- s.products = append(s.products, model.Product{})
    let m1 := m.append growth Product.zero
    let xs := m1.contents
    -- copy(s.products[i+1:], s.products[i:])
    if i + 1 ≤ xs.length then
      let ys := xs.take (i + 1) ++ copySlice (xs.drop (i + 1)) (xs.drop i)
      -- s.products[i] = val
      match setIndex ys i val with
      | none => none
      | some zs => some ((val.ID, none), m1.store zs)
    else none

/-- `Service.Update` on the memory: the record is overwritten in place. -/
def Mem.Update (m : Mem) (val : Product) : Option (Option Error × Mem) :=
  match (Service.mk m.contents).findIndex val.ID with
  | none => none
  | some (_, false) => some (some Error.ErrorNoRowsUpdated, m)
  | some (i, true) =>
    match m.contents[i]? with
    | none => none
    | some newVal =>
      if val.Name ≠ "" ∧ ¬ f64IsZero val.Price then
        (setIndex m.contents i { newVal with Price := val.Price, Name := val.Name }).map
          (fun xs => (none, m.store xs))
      else if ¬ f64IsZero val.Price then
        (setIndex m.contents i { newVal with Price := val.Price }).map
          (fun xs => (none, m.store xs))
      else if val.Name ≠ "" then
        (setIndex m.contents i { newVal with Name := val.Name }).map
          (fun xs => (none, m.store xs))
      else some (some Error.ErrorNoUpdateParams, m)

/-- `Service.Delete` on the memory: `append(s.products[:i], s.products[i+1:]...)`
fits the capacity of `s.products[:i]`, so the elements behind position `i` are
shifted left in the same backing array. -/
def Mem.Delete (m : Mem) (id : String) : Option (Option Error × Mem) :=
  match (Service.mk m.contents).findIndex id with
  | none => none
  | some (_, false) => some (some Error.ErrorNoRowsDeleted, m)
  | some (i, true) =>
    if i + 1 ≤ m.contents.length then
      some (none, m.store (m.contents.take i ++ m.contents.drop (i + 1)))
    else none

/-- `Service.Get` on the memory: the record is returned by value. -/
def Mem.Get (m : Mem) (id : String) : Option ((Product × Option Error) × Mem) :=
  match (Service.mk m.contents).findIndex id with
  | none => none
  | some (_, false) => some ((Product.zero, some Error.ErrNoRows), m)
  | some (i, true) =>
    match m.contents[i]? with
    | none => none
    | some p => some ((p, none), m)

/-- `Service.GetAll` on the memory: `make` allocates a new backing array, `copy`
fills it, and the header of the new slice is returned. -/
def Mem.GetAll (m : Mem) : Option ((SliceRef × Option Error) × Mem) :=
  let out := List.replicate m.contents.length Product.zero
  some ((⟨m.heap.length, m.contents.length⟩, none),
    { m with heap := m.heap ++ [copySlice out m.contents] })

/-- The memory after one call (the returned values are dropped). -/
def Mem.step (m : Mem) (growth : Nat → Nat) : Op → Option Mem
  | .add val => (m.Add growth val).map Prod.snd
  | .update val => (m.Update val).map Prod.snd
  | .delete id => (m.Delete id).map Prod.snd
  | .get id => (m.Get id).map Prod.snd
  | .getAll => m.GetAll.map Prod.snd

/-- The memory after a sequence of calls, left to right. -/
def Mem.run (m : Mem) (growth : Nat → Nat) : List Op → Option Mem
  | [] => some m
  | op :: ops => (m.step growth op).bind (fun t => t.run growth ops)

/-- The header of `s.products` is well formed: its length is within the
capacity and its array is allocated. -/
def Mem.WF (m : Mem) : Prop :=
  m.len ≤ m.array.length ∧ ∀ a, m.ptr = some a → a < m.heap.length

/-- A memory state is reachable when some sequence of calls produces it from
the memory of `New`. -/
def Mem.Reachable (growth : Nat → Nat) (m : Mem) : Prop :=
  ∃ ops, Mem.New.run growth ops = some m

/-- The array at address `a` is allocated and is not the backing array of
`s.products`, whose own array is allocated too. -/
def Mem.Apart (m : Mem) (a : Nat) : Prop :=
  a < m.heap.length ∧ m.ptr ≠ some a ∧ ∀ b, m.ptr = some b → b < m.heap.length

/-! ## The context argument -/

/-- What a callee can observe of a `context.Context`: whether it is cancelled
and its deadline, if it has one. -/
structure Context where
  cancelled : Bool
  deadline : Option Nat
  deriving DecidableEq, Repr

/-- The context `context.Background()`: never cancelled, no deadline. -/
def Context.background : Context := ⟨false, none⟩

/-- `Service.Add` with its context parameter, which the source binds to `_`. -/
def Service.AddCtx (s : Service) (_ : Context) (val : Product) :
    Option ((String × Option Error) × Service) :=
  s.Add val

/-- `Service.Update` with its context parameter, which the source binds to `_`. -/
def Service.UpdateCtx (s : Service) (_ : Context) (val : Product) :
    Option (Option Error × Service) :=
  s.Update val

/-- `Service.Delete` with its context parameter, which the source binds to `_`. -/
def Service.DeleteCtx (s : Service) (_ : Context) (id : String) :
    Option (Option Error × Service) :=
  s.Delete id

/-- `Service.Get` with its context parameter, which the source binds to `_`. -/
def Service.GetCtx (s : Service) (_ : Context) (id : String) :
    Option ((Product × Option Error) × Service) :=
  s.Get id

/-- `Service.GetAll` with its context parameter, which the source binds to `_`. -/
def Service.GetAllCtx (s : Service) (_ : Context) :
    Option ((List Product × Option Error) × Service) :=
  s.GetAll

/-! ## Error values and `model.ParseProduct` -/

/-- A Go `error` value as a caller sees it: the text of `err.Error()` and, for
each error value of the store, whether `errors.Is` finds it in `err`. -/
structure GoError where
  message : String
  isError : Error → Bool

/-- One of the error values of the store, seen as a Go `error`: `errors.Is`
finds exactly this value. -/
def GoError.ofError (e : Error) : GoError := ⟨e.message, fun t => decide (t = e)⟩

/-- The value `errors.New(text)` made on the spot: `errors.Is` finds none of the
error values of the store in it. -/
def GoError.fresh (text : String) : GoError := ⟨text, fun _ => false⟩

end InMemory2

namespace Model

open InMemory2

/-- `model.ParseProduct`.  `strconv.ParseFloat(priceStr, 64)` belongs to the
standard library and is the input `parseFloat`: the bit pattern of the parsed
number, or `none` when it returns an error. -/
def ParseProduct (parseFloat : String → Option Nat) (id name priceStr : String) :
    Product × Option GoError :=
  if id = "" then (Product.zero, some (GoError.fresh "invalid id"))
  else
    let ret : Product := { ID := id, Name := "", Price := 0, CreatedAt := 0 }
    let ret : Product :=
      match parseFloat priceStr with
      | some price => { ret with Price := price }
      | none => ret
    let ret : Product := if name ≠ "" then { ret with Name := name } else ret
    if ret.Name = "" ∧ f64IsZero ret.Price = true then
      (Product.zero, some (GoError.ofError Error.ErrorNoUpdateParams))
    else (ret, none)

end Model

namespace InMemory2

/-! ## The lock

The operations once more, with the `sync.RWMutex` of the store as explicit
state and a log of what a call does with the lock and with `s.products`. -/

/-- The state of the `sync.RWMutex`: free, held by one writer, or held by a
number of readers (at least one). -/
inductive LockState where
  | free
  | exclusive
  | shared (readers : Nat)
  deriving DecidableEq, Repr

/-- What a call does with the lock and with the record sequence. -/
inductive Event where
  | Lock
  | Unlock
  | RLock
  | RUnlock
  | read
  | write
  deriving DecidableEq, Repr

/-- The store with its lock and the log of events so far. -/
structure Locked where
  products : List Product
  mu : LockState
  log : List Event
  deriving DecidableEq, Repr

/-- The call `s.mu.Lock()`: it takes the free lock in exclusive mode.  On a lock
that is held the caller would wait; a run of one call has no other party to
release it, so there is no result. -/
def Locked.Lock (l : Locked) : Option Locked :=
  match l.mu with
  | LockState.free => some { l with mu := LockState.exclusive, log := l.log ++ [Event.Lock] }
  | _ => none

/-- The call `s.mu.Unlock()`: it releases the lock held in exclusive mode; on any
other lock it is a fatal error. -/
def Locked.Unlock (l : Locked) : Option Locked :=
  match l.mu with
  | LockState.exclusive =>
    some { l with mu := LockState.free, log := l.log ++ [Event.Unlock] }
  | _ => none

/-- The call `s.mu.RLock()`: it takes the lock in shared mode, next to the
readers that hold it already. -/
def Locked.RLock (l : Locked) : Option Locked :=
  match l.mu with
  | LockState.free => some { l with mu := LockState.shared 1, log := l.log ++ [Event.RLock] }
  | LockState.shared n =>
    some { l with mu := LockState.shared (n + 1), log := l.log ++ [Event.RLock] }
  | LockState.exclusive => none

/-- The call `s.mu.RUnlock()`: one reader less; on a lock that no reader holds it
is a fatal error. -/
def Locked.RUnlock (l : Locked) : Option Locked :=
  match l.mu with
  | LockState.shared (n + 2) =>
    some { l with mu := LockState.shared (n + 1), log := l.log ++ [Event.RUnlock] }
  | LockState.shared 1 => some { l with mu := LockState.free, log := l.log ++ [Event.RUnlock] }
  | _ => none

/-- A statement that reads `s.products`.  There is a result only while the lock
is held, in either mode. -/
def Locked.read (l : Locked) : Option (List Product × Locked) :=
  match l.mu with
  | LockState.free => none
  | _ => some (l.products, { l with log := l.log ++ [Event.read] })

/-- A statement that changes `s.products` (by `f`, which may panic).  There is a
result only while the lock is held in exclusive mode. -/
def Locked.modify (l : Locked) (f : List Product → Option (List Product)) :
    Option Locked :=
  match l.mu with
  | LockState.exclusive =>
    match f l.products with
    | none => none
    | some xs => some { l with products := xs, log := l.log ++ [Event.write] }
  | _ => none

/-- `s.mu.Lock(); defer s.mu.Unlock()` in front of a body: the lock is taken
first, and on whichever path the body returns, the deferred `Unlock` runs
after it. -/
def Locked.withLock {α : Type} (l : Locked) (body : Locked → Option (α × Locked)) :
    Option (α × Locked) :=
  match l.Lock with
  | none => none
  | some l1 =>
    match body l1 with
    | none => none
    | some (r, l2) =>
      match l2.Unlock with
      | none => none
      | some l3 => some (r, l3)

/-- `s.mu.RLock(); defer s.mu.RUnlock()` in front of a body. -/
def Locked.withRLock {α : Type} (l : Locked) (body : Locked → Option (α × Locked)) :
    Option (α × Locked) :=
  match l.RLock with
  | none => none
  | some l1 =>
    match body l1 with
    | none => none
    | some (r, l2) =>
      match l2.RUnlock with
      | none => none
      | some l3 => some (r, l3)

/-- `Service.findIndex` as a statement of a method body: it reads `s.products`. -/
def Locked.findIndex (l : Locked) (id : String) : Option ((Nat × Bool) × Locked) :=
  match l.read with
  | none => none
  | some (xs, l1) =>
    match (Service.mk xs).findIndex id with
    | none => none
    | some r => some (r, l1)

/-- `Service.Add` with the lock. -/
def Locked.Add (l : Locked) (val : Product) : Option ((String × Option Error) × Locked) :=
  l.withLock (fun l1 =>
    match l1.findIndex val.ID with
    | none => none
    | some ((_, true), l2) => some (("", some Error.productAlreadyExists), l2)
    | some ((i, false), l2) =>
      -- s.products = append(s.products, model.Product{})
      match l2.modify (fun xs => some (xs ++ [Product.zero])) with
      | none => none
      | some l3 =>
        -- copy(s.products[i+1:], s.products[i:])
        match l3.modify (fun xs =>
            if i + 1 ≤ xs.length then
              some (xs.take (i + 1) ++ copySlice (xs.drop (i + 1)) (xs.drop i))
            else none) with
        | none => none
        | some l4 =>
          -- s.products[i] = val
          match l4.modify (fun ys => setIndex ys i val) with
          | none => none
          | some l5 => some ((val.ID, none), l5))

/-- `Service.Update` with the lock. -/
def Locked.Update (l : Locked) (val : Product) : Option (Option Error × Locked) :=
  l.withLock (fun l1 =>
    match l1.findIndex val.ID with
    | none => none
    | some ((_, false), l2) => some (some Error.ErrorNoRowsUpdated, l2)
    | some ((i, true), l2) =>
      -- newVal := s.products[i]
      match l2.read with
      | none => none
      | some (xs, l3) =>
        match xs[i]? with
        | none => none
        | some newVal =>
          if val.Name ≠ "" ∧ ¬ f64IsZero val.Price then
            (l3.modify (fun ys =>
              setIndex ys i { newVal with Price := val.Price, Name := val.Name })).map
              (fun l4 => (none, l4))
          else if ¬ f64IsZero val.Price then
            (l3.modify (fun ys => setIndex ys i { newVal with Price := val.Price })).map
              (fun l4 => (none, l4))
          else if val.Name ≠ "" then
            (l3.modify (fun ys => setIndex ys i { newVal with Name := val.Name })).map
              (fun l4 => (none, l4))
          else some (some Error.ErrorNoUpdateParams, l3))

/-- `Service.Delete` with the lock. -/
def Locked.Delete (l : Locked) (id : String) : Option (Option Error × Locked) :=
  l.withLock (fun l1 =>
    match l1.findIndex id with
    | none => none
    | some ((_, false), l2) => some (some Error.ErrorNoRowsDeleted, l2)
    | some ((i, true), l2) =>
      -- s.products = append(s.products[:i], s.products[i+1:]...)
      (l2.modify (fun xs =>
        if i + 1 ≤ xs.length then some (xs.take i ++ xs.drop (i + 1)) else none)).map
        (fun l3 => (none, l3)))

/-- `Service.Get` with the lock. -/
def Locked.Get (l : Locked) (id : String) : Option ((Product × Option Error) × Locked) :=
  l.withRLock (fun l1 =>
    match l1.findIndex id with
    | none => none
    | some ((_, false), l2) => some ((Product.zero, some Error.ErrNoRows), l2)
    | some ((i, true), l2) =>
      -- return s.products[i], nil
      match l2.read with
      | none => none
      | some (xs, l3) =>
        match xs[i]? with
        | none => none
        | some p => some ((p, none), l3))

/-- `Service.GetAll` with the lock. -/
def Locked.GetAll (l : Locked) : Option ((List Product × Option Error) × Locked) :=
  l.withRLock (fun l1 =>
    -- out := make([]model.Product, len(s.products))
    match l1.read with
    | none => none
    | some (xs, l2) =>
      -- copy(out, s.products)
      match l2.read with
      | none => none
      | some (ys, l3) =>
        some ((copySlice (List.replicate xs.length Product.zero) ys, none), l3))

/-- The events of a call that took the lock in exclusive mode: `Lock` first,
then reads and writes of `s.products`, then the one `Unlock`. -/
def writerLog (events : List Event) : Prop :=
  ∃ accesses : List Event,
    events = Event.Lock :: accesses ++ [Event.Unlock] ∧
    ∀ e ∈ accesses, e = Event.read ∨ e = Event.write

/-- The events of a call that took the lock in shared mode: `RLock` first, then
reads of `s.products`, then the one `RUnlock`. -/
def readerLog (events : List Event) : Prop :=
  ∃ accesses : List Event,
    events = Event.RLock :: accesses ++ [Event.RUnlock] ∧ ∀ e ∈ accesses, e = Event.read

/-! ## The front-ends -/

/-- The methods of the interface `model.DB` that the handlers below call, for a
store with states `σ`: each returns its results and the store afterwards, or
`none` when it panics. -/
structure DB (σ : Type) where
  Update : σ → Product → Option (Option GoError × σ)
  Delete : σ → String → Option (Option GoError × σ)
  Get : σ → String → Option ((Product × Option GoError) × σ)

/-- The `in_memory2` store behind the interface `model.DB`. -/
def inMemory2 : DB Service where
  Update := fun s val => (s.Update val).map (fun r => (r.1.map GoError.ofError, r.2))
  Delete := fun s id => (s.Delete id).map (fun r => (r.1.map GoError.ofError, r.2))
  Get := fun s id => (s.Get id).map (fun r => ((r.1.1, r.1.2.map GoError.ofError), r.2))

/-- An HTTP response: the status code and the body. -/
structure Response where
  status : Nat
  body : String
  deriving DecidableEq, Repr

/-- A `float64` given by its bit pattern is a number, neither NaN nor infinite:
not all of its eleven exponent bits are set. -/
def f64IsFinite (bits : Nat) : Bool := (bits / 2 ^ 52) % 2 ^ 11 != 2047

/-- Go's `json.Marshal` on a `model.Product` (standard library): it fails with
an `UnsupportedValueError` exactly when the `float64` field is NaN or
infinite.  The text it produces otherwise is left open (`encode`). -/
def jsonMarshal (encode : Product → String) (p : Product) : Except GoError String :=
  if f64IsFinite p.Price then Except.ok (encode p)
  else if p.Price % 2 ^ 52 ≠ 0 then Except.error (GoError.fresh "json: unsupported value: NaN")
  else if p.Price / 2 ^ 63 % 2 = 0 then
    Except.error (GoError.fresh "json: unsupported value: +Inf")
  else Except.error (GoError.fresh "json: unsupported value: -Inf")

end InMemory2

namespace NetHttp

open InMemory2

/-- `Service.sendError`: the status and the body `{"error":<quoted message>}`.
`strconv.Quote` belongs to the standard library and is the input `quote`. -/
def sendError (quote : String → String) (status : Nat) (err : GoError) : Response :=
  ⟨status, "\x7b\"error\":" ++ quote err.message ++ "\x7d"⟩

/-- `Service.sendMessage`: status 200 and the body `{"msg":<quoted message>}`. -/
def sendMessage (quote : String → String) (msg : String) : Response :=
  ⟨200, "\x7b\"msg\":" ++ quote msg ++ "\x7d"⟩

/-- `Service.sendJson` for a `model.Product`; `json.Marshal` is the input
`marshal`. -/
def sendJson (quote : String → String) (marshal : Product → Except GoError String)
    (val : Product) : Response :=
  match marshal val with
  | Except.error err => sendError quote 500 err
  | Except.ok b => ⟨200, b⟩

/-- `Service.UpdateProduct`; `id`, `name` and `price` are the form values. -/
def UpdateProduct {σ : Type} (quote : String → String) (parseFloat : String → Option Nat)
    (db : DB σ) (s : σ) (id name price : String) : Option (Response × σ) :=
  match Model.ParseProduct parseFloat id name price with
  | (_, some err) => some (sendError quote 400 err, s)
  | (prod, none) =>
    match db.Update s prod with
    | none => none
    | some (some err, t) =>
      some (sendError quote (if err.isError Error.ErrorNoRowsUpdated then 400 else 500) err, t)
    | some (none, t) => some (sendMessage quote "Product updated", t)

/-- `Service.DeleteProduct`; `id` is the form value. -/
def DeleteProduct {σ : Type} (quote : String → String) (db : DB σ) (s : σ) (id : String) :
    Option (Response × σ) :=
  match db.Delete s id with
  | none => none
  | some (some err, t) =>
    some (sendError quote (if err.isError Error.ErrorNoRowsDeleted then 400 else 500) err, t)
  | some (none, t) => some (sendMessage quote "Product deleted", t)

/-- `Service.GetProduct`; `id` is the form value. -/
def GetProduct {σ : Type} (quote : String → String)
    (marshal : Product → Except GoError String) (db : DB σ) (s : σ) (id : String) :
    Option (Response × σ) :=
  match db.Get s id with
  | none => none
  | some ((_, some err), t) =>
    some (sendError quote (if err.isError Error.ErrNoRows then 400 else 500) err, t)
  | some ((val, none), t) => some (sendJson quote marshal val, t)

end NetHttp

namespace Grpc

open InMemory2

/-- The two status codes the handlers use: `codes.Aborted` and
`codes.InvalidArgument`. -/
inductive Code where
  | Aborted
  | InvalidArgument
  deriving DecidableEq, Repr

/-- The error `status.Error(code, message)`. -/
structure Status where
  code : Code
  message : String
  deriving DecidableEq, Repr

/-- `Service.UpdateProduct`; `reqName` and `reqPrice` are the optional fields of
the request.  `strconv.FormatFloat(price, 'f', -1, 64)` belongs to the standard
library and is the input `formatFloat`.  On success the `Msg` of the
`UpdateResponse` is returned. -/
def UpdateProduct {σ : Type} (parseFloat : String → Option Nat) (formatFloat : Nat → String)
    (db : DB σ) (s : σ) (reqId : String) (reqName : Option String) (reqPrice : Option Nat) :
    Option (Except Status String × σ) :=
  let name := match reqName with
    | some n => n
    | none => ""
  let price := match reqPrice with
    | some x => x
    | none => 0
  match Model.ParseProduct parseFloat reqId name (formatFloat price) with
  | (_, some err) => some (Except.error ⟨Code.Aborted, err.message⟩, s)
  | (prod, none) =>
    match db.Update s prod with
    | none => none
    | some (some err, t) =>
      some (Except.error
        ⟨if err.isError Error.ErrorNoRowsUpdated then Code.InvalidArgument else Code.Aborted,
          err.message⟩, t)
    | some (none, t) => some (Except.ok "Product updated", t)

/-- `Service.DeleteProduct`.  On success the `Msg` of the `DeleteResponse` is
returned. -/
def DeleteProduct {σ : Type} (db : DB σ) (s : σ) (reqId : String) :
    Option (Except Status String × σ) :=
  match db.Delete s reqId with
  | none => none
  | some (some err, t) =>
    some (Except.error
      ⟨if err.isError Error.ErrorNoRowsDeleted then Code.InvalidArgument else Code.Aborted,
        err.message⟩, t)
  | some (none, t) => some (Except.ok "Product deleted", t)

/-- `Service.GetProduct`.  On success the record is returned (`mapProduct` copies
its four fields). -/
def GetProduct {σ : Type} (db : DB σ) (s : σ) (reqId : String) :
    Option (Except Status Product × σ) :=
  match db.Get s reqId with
  | none => none
  | some ((_, some err), t) =>
    some (Except.error
      ⟨if err.isError Error.ErrorNoRowsDeleted then Code.InvalidArgument else Code.Aborted,
        err.message⟩, t)
  | some ((val, none), t) => some (Except.ok val, t)

end Grpc

namespace YamlToCode

open InMemory2

/-- The three response objects of `UpdateProduct`, each with the text it
carries (`Msg` or `Error`). -/
inductive UpdateProductResponseObject where
  | UpdateProduct200JSONResponse (msg : String)
  | UpdateProduct400JSONResponse (error : String)
  | UpdateProduct500JSONResponse (error : String)
  deriving DecidableEq, Repr

/-- `Service.UpdateProduct`; `bodyId`, `bodyName` and `bodyPrice` are the fields
`Id`, `Name` and `Price` of `request.Body`, the last two optional. -/
def UpdateProduct {σ : Type} (db : DB σ) (s : σ) (bodyId : String)
    (bodyName : Option String) (bodyPrice : Option Nat) :
    Option (UpdateProductResponseObject × σ) :=
  if bodyName = none ∧ bodyPrice = none then
    some (UpdateProductResponseObject.UpdateProduct400JSONResponse
      Error.ErrorNoUpdateParams.message, s)
  else
    let prod : Product := { ID := bodyId, Name := "", Price := 0, CreatedAt := 0 }
    let prod : Product := match bodyName with
      | some n => { prod with Name := n }
      | none => prod
    let prod : Product := match bodyPrice with
      | some x => { prod with Price := x }
      | none => prod
    match db.Update s prod with
    | none => none
    | some (some err, t) =>
      if err.isError Error.ErrorNoRowsUpdated then
        some (UpdateProductResponseObject.UpdateProduct400JSONResponse err.message, t)
      else some (UpdateProductResponseObject.UpdateProduct500JSONResponse err.message, t)
    | some (none, t) =>
      some (UpdateProductResponseObject.UpdateProduct200JSONResponse "Product updated", t)

end YamlToCode

namespace InMemory2

/-! ## Sample data -/

/-- A sample of `strconv.Quote`: the text between double quotes (right for
texts without characters to escape). -/
def sampleQuote (text : String) : String := "\"" ++ text ++ "\""

/-- A sample of the text `json.Marshal` produces: only the id. -/
def sampleEncode (p : Product) : String := "\x7b\"id\":" ++ sampleQuote p.ID ++ "\x7d"

/-- The record `apple` with the price NaN, as `Update` with the parsed price
string `NaN` leaves it. -/
def appleNaN : Product := ⟨"a1", "Apple", 0x7FF8000000000001, 1700000000⟩


/-- A sample of `strconv.ParseFloat` on a few strings: `9.99`, `0`, `-0` and
`NaN` parse to their bit patterns, the other strings (the empty one too) give
an error. -/
def sampleParseFloat (str : String) : Option Nat :=
  if str = "9.99" then some 0x4023FAE147AE147B
  else if str = "0" then some 0
  else if str = "-0" then some 0x8000000000000000
  else if str = "NaN" then some 0x7FF8000000000001
  else none


/-- A record as `Add` may generate it, with the id `p1`; the price is the bit
pattern of `1.5`. -/
def widgetSeed : Product := ⟨"p1", "Apple", 0x3FF8000000000000, 1700000000⟩


/-- A sample record; the price is the bit pattern of `1.5`. -/
def apple : Product := ⟨"a1", "Apple", 0x3FF8000000000000, 1700000000⟩

/-- A sample record; the price is the bit pattern of `2.5`. -/
def banana : Product := ⟨"b2", "Banana", 0x4004000000000000, 1700000001⟩

/-- A sample record; the price is the bit pattern of `99.99`. -/
def cherry : Product := ⟨"c3", "Cherry", 0x4058FF5C28F5C28F, 1700000002⟩

/-- The store holding `apple` and `banana`. -/
def sampleStore : Service := ⟨[apple, banana]⟩

/-- The memory after `Add` generated `banana` and then `apple`, when the runtime
doubles the capacity: one backing array, both elements in use. -/
def sampleMem : Mem := ⟨[[apple, banana]], some 0, 2⟩

/-! ## Sorted record lists and the lower bound -/

theorem lowerBound_le_length (xs : List Product) (id : String) :
    lowerBound xs id ≤ xs.length :=
  List.countP_le_length _

theorem sortedByID_tail {a : Product} {t : List Product} (h : SortedByID (a :: t)) :
    SortedByID t :=
  (List.pairwise_cons.mp h).2

/-- In a sorted list the records with an id below `id` are exactly those at the
positions below `lowerBound`. -/
theorem getElem_lt_iff_lt_lowerBound (id : String) :
    ∀ (xs : List Product), SortedByID xs → ∀ (k : Nat) (hk : k < xs.length),
      (xs[k].ID < id ↔ k < lowerBound xs id) := by
  intro xs
  induction xs with
  | nil => intro _ k hk; simp at hk
  | cons a t ih =>
    intro h k hk
    have hhead : ∀ p ∈ t, a.ID < p.ID := (List.pairwise_cons.mp h).1
    by_cases c : a.ID < id
    · have hlb : lowerBound (a :: t) id = lowerBound t id + 1 := by
        simp only [lowerBound, List.countP_cons, decide_eq_true c, ↓reduceIte]
      cases k with
      | zero =>
        simp only [List.getElem_cons_zero, hlb]
        exact ⟨fun _ => Nat.succ_pos _, fun _ => c⟩
      | succ k =>
        have hk2 : k < t.length := by simpa using hk
        simp only [List.getElem_cons_succ, hlb]
        exact (ih (sortedByID_tail h) k hk2).trans (by omega)
    · have hz : ∀ p ∈ t, ¬ p.ID < id := fun p hp hlt => c (lt_trans (hhead p hp) hlt)
      have hlb : lowerBound (a :: t) id = 0 := by
        have h0 : List.countP (fun p => decide (p.ID < id)) t = 0 :=
          List.countP_eq_zero.mpr (fun p hp => by
            simp only [decide_eq_true_eq]; exact hz p hp)
        simp only [lowerBound, List.countP_cons, h0, decide_eq_false c]
        rfl
      cases k with
      | zero =>
        simp only [List.getElem_cons_zero, hlb]
        exact ⟨fun hlt => absurd hlt c, fun hlt => absurd hlt (Nat.lt_irrefl 0)⟩
      | succ k =>
        have hk2 : k < t.length := by simpa using hk
        simp only [List.getElem_cons_succ, hlb]
        constructor
        · intro hlt; exact absurd hlt (hz _ (List.getElem_mem hk2))
        · intro hlt; omega

/-- Two positions of a sorted list hold the same id only when they are equal. -/
theorem index_eq_of_ID_eq {xs : List Product} (h : SortedByID xs) {i k : Nat}
    (hi : i < xs.length) (hk : k < xs.length) (he : xs[i].ID = xs[k].ID) : i = k := by
  rcases Nat.lt_trichotomy i k with hlt | heq | hgt
  · exact absurd he (ne_of_lt (List.pairwise_iff_getElem.mp h i k hi hk hlt))
  · exact heq
  · exact absurd he.symm (ne_of_lt (List.pairwise_iff_getElem.mp h k i hk hi hgt))

/-- In a sorted list an id that occurs sits at its lower-bound position. -/
theorem hasID_iff_at_lowerBound {xs : List Product} (h : SortedByID xs) (id : String) :
    HasID xs id ↔ ∃ hi : lowerBound xs id < xs.length, xs[lowerBound xs id].ID = id := by
  constructor
  · rintro ⟨p, hp, rfl⟩
    obtain ⟨k, hk, rfl⟩ := List.mem_iff_getElem.mp hp
    have hge : lowerBound xs xs[k].ID ≤ k := by
      have := getElem_lt_iff_lt_lowerBound xs[k].ID xs h k hk
      by_contra hc
      exact lt_irrefl _ (this.mpr (by omega))
    have hi : lowerBound xs xs[k].ID < xs.length := by omega
    refine ⟨hi, ?_⟩
    rcases Nat.eq_or_lt_of_le hge with heq | hlt
    · simp only [heq]
    · have h1 : xs[lowerBound xs xs[k].ID].ID < xs[k].ID :=
        List.pairwise_iff_getElem.mp h _ _ hi hk hlt
      have h2 := (getElem_lt_iff_lt_lowerBound xs[k].ID xs h _ hi).mp h1
      omega
  · rintro ⟨hi, he⟩
    exact ⟨_, List.getElem_mem hi, he⟩

/-! ## The binary search -/

/-- When the predicate is `h ↦ t ≤ h` on `[0, n)`, the loop started on an
interval around `t` with enough iterations returns `t`. -/
theorem searchLoop_threshold (f : Nat → Option Bool) (n t : Nat)
    (hf : ∀ h, h < n → f h = some (decide (t ≤ h))) :
    ∀ (fuel i j : Nat), i ≤ t → t ≤ j → j ≤ n → j - i ≤ fuel →
      searchLoop f fuel i j = some t := by
  intro fuel
  induction fuel with
  | zero =>
    intro i j hi hj _ hfu
    have : i = t := by omega
    simp only [searchLoop]
    rw [if_neg (by omega), this]
  | succ fuel ih =>
    intro i j hi hj hn hfu
    simp only [searchLoop]
    by_cases hij : i < j
    · rw [if_pos hij, hf _ (by omega)]
      by_cases c : t ≤ (i + j) / 2
      · simp only [c, decide_True]
        exact ih i _ hi c (by omega) (by omega)
      · simp only [c, decide_False]
        exact ih _ j (by omega) hj hn (by omega)
    · rw [if_neg hij]
      have : i = t := by omega
      rw [this]

/-- On a sorted store `findIndex` returns the lower-bound position and whether
the id occurs. -/
theorem findIndex_sorted (s : Service) (id : String) (h : SortedByID s.products) :
    ∃ found, s.findIndex id = some (lowerBound s.products id, found) ∧
      (found = true ↔ HasID s.products id) := by
  have hlb := lowerBound_le_length s.products id
  have hsearch : Search s.products.length
      (fun i => (s.products[i]?).map (fun p => decide (p.ID ≥ id)))
      = some (lowerBound s.products id) := by
    apply searchLoop_threshold _ s.products.length _ _ _ 0 _ (Nat.zero_le _) hlb
      (le_refl _) (by omega)
    intro k hk
    have := getElem_lt_iff_lt_lowerBound id s.products h k hk
    simp only [List.getElem?_eq_getElem hk, Option.map_some', ge_iff_le]
    congr 1
    rw [decide_eq_decide, ← not_lt, this]
    omega
  simp only [Service.findIndex, hsearch]
  by_cases hi : lowerBound s.products id < s.products.length
  · rw [if_pos hi, List.getElem?_eq_getElem hi]
    by_cases he : s.products[lowerBound s.products id].ID = id
    · refine ⟨true, by simp [he], ?_⟩
      simp only [true_iff]
      exact (hasID_iff_at_lowerBound h id).mpr ⟨hi, he⟩
    · refine ⟨false, by simp [he], ?_⟩
      simp only [Bool.false_eq_true, false_iff]
      intro hc
      obtain ⟨_, he2⟩ := (hasID_iff_at_lowerBound h id).mp hc
      exact he he2
  · rw [if_neg hi]
    refine ⟨false, rfl, ?_⟩
    simp only [Bool.false_eq_true, false_iff]
    intro hc
    obtain ⟨hi2, _⟩ := (hasID_iff_at_lowerBound h id).mp hc
    exact hi hi2

/-! ## The operations on a sorted store -/

/-- The three statements of `Add` that make room at position `i` and store `v`
there amount to inserting `v` before position `i`. -/
theorem shift_insert {α : Type} (z v : α) :
    ∀ (xs : List α) (i : Nat), i ≤ xs.length →
      ((xs ++ [z]).take (i + 1)
          ++ copySlice ((xs ++ [z]).drop (i + 1)) ((xs ++ [z]).drop i)).set i v
        = xs.take i ++ v :: xs.drop i := by
  intro xs
  induction xs with
  | nil =>
    intro i hi
    have : i = 0 := by simpa using hi
    subst this
    simp [copySlice]
  | cons a t ih =>
    intro i hi
    cases i with
    | zero =>
      simp [copySlice, List.take_append_of_le_length]
    | succ i =>
      have hi2 : i ≤ t.length := by simpa using hi
      have := ih i hi2
      simp only [List.cons_append, List.take_succ_cons, List.drop_succ_cons,
        List.set_cons_succ] at this ⊢
      rw [this]

theorem copySlice_make {α : Type} (z : α) (xs : List α) :
    copySlice (List.replicate xs.length z) xs = xs := by
  simp [copySlice]

theorem GetAll_eq (s : Service) : s.GetAll = some ((s.products, none), s) := by
  simp only [Service.GetAll, copySlice_make]

theorem Add_fresh (s : Service) (val : Product) (h : SortedByID s.products)
    (hn : ¬ HasID s.products val.ID) :
    s.Add val = some ((val.ID, none),
      ⟨s.products.take (lowerBound s.products val.ID)
        ++ val :: s.products.drop (lowerBound s.products val.ID)⟩) := by
  obtain ⟨found, hf, hiff⟩ := findIndex_sorted s val.ID h
  have hfalse : found = false := by
    cases found with
    | false => rfl
    | true => exact absurd (hiff.mp rfl) hn
  subst hfalse
  have hlb := lowerBound_le_length s.products val.ID
  simp only [Service.Add, hf, setIndex]
  rw [if_pos (by simp only [List.length_append, List.length_singleton]; omega)]
  rw [if_pos (by simp [copySlice]; omega)]
  simp only [shift_insert Product.zero val s.products _ hlb]

theorem Add_collision (s : Service) (val : Product) (h : SortedByID s.products)
    (hh : HasID s.products val.ID) :
    s.Add val = some (("", some Error.productAlreadyExists), s) := by
  obtain ⟨found, hf, hiff⟩ := findIndex_sorted s val.ID h
  have htrue : found = true := hiff.mpr hh
  subst htrue
  simp only [Service.Add, hf]

theorem Delete_absent (s : Service) (id : String) (h : SortedByID s.products)
    (hn : ¬ HasID s.products id) :
    s.Delete id = some (some Error.ErrorNoRowsDeleted, s) := by
  obtain ⟨found, hf, hiff⟩ := findIndex_sorted s id h
  have hfalse : found = false := by
    cases found with
    | false => rfl
    | true => exact absurd (hiff.mp rfl) hn
  subst hfalse
  simp only [Service.Delete, hf]

theorem Delete_present (s : Service) (id : String) (h : SortedByID s.products)
    (hh : HasID s.products id) :
    s.Delete id = some (none,
      ⟨s.products.take (lowerBound s.products id)
        ++ s.products.drop (lowerBound s.products id + 1)⟩) := by
  obtain ⟨found, hf, hiff⟩ := findIndex_sorted s id h
  have htrue : found = true := hiff.mpr hh
  subst htrue
  obtain ⟨hi, _⟩ := (hasID_iff_at_lowerBound h id).mp hh
  simp only [Service.Delete, hf]
  rw [if_pos (by omega)]

theorem Get_absent (s : Service) (id : String) (h : SortedByID s.products)
    (hn : ¬ HasID s.products id) :
    s.Get id = some ((Product.zero, some Error.ErrNoRows), s) := by
  obtain ⟨found, hf, hiff⟩ := findIndex_sorted s id h
  have hfalse : found = false := by
    cases found with
    | false => rfl
    | true => exact absurd (hiff.mp rfl) hn
  subst hfalse
  simp only [Service.Get, hf]

theorem Get_present (s : Service) (id : String) (h : SortedByID s.products)
    (hh : HasID s.products id) :
    ∃ hi : lowerBound s.products id < s.products.length,
      s.products[lowerBound s.products id].ID = id ∧
      s.Get id = some ((s.products[lowerBound s.products id], none), s) := by
  obtain ⟨found, hf, hiff⟩ := findIndex_sorted s id h
  have htrue : found = true := hiff.mpr hh
  subst htrue
  obtain ⟨hi, he⟩ := (hasID_iff_at_lowerBound h id).mp hh
  refine ⟨hi, he, ?_⟩
  simp only [Service.Get, hf, List.getElem?_eq_getElem hi]

theorem Update_absent (s : Service) (val : Product) (h : SortedByID s.products)
    (hn : ¬ HasID s.products val.ID) :
    s.Update val = some (some Error.ErrorNoRowsUpdated, s) := by
  obtain ⟨found, hf, hiff⟩ := findIndex_sorted s val.ID h
  have hfalse : found = false := by
    cases found with
    | false => rfl
    | true => exact absurd (hiff.mp rfl) hn
  subst hfalse
  simp only [Service.Update, hf]

theorem Update_present (s : Service) (val : Product) (h : SortedByID s.products)
    (hh : HasID s.products val.ID) :
    ∃ hi : lowerBound s.products val.ID < s.products.length,
      s.products[lowerBound s.products val.ID].ID = val.ID ∧
      s.Update val =
        if val.Name = "" ∧ f64IsZero val.Price = true then
          some (some Error.ErrorNoUpdateParams, s)
        else
          some (none, ⟨s.products.set (lowerBound s.products val.ID)
            (updatedRecord s.products[lowerBound s.products val.ID] val)⟩) := by
  obtain ⟨found, hf, hiff⟩ := findIndex_sorted s val.ID h
  have htrue : found = true := hiff.mpr hh
  subst htrue
  obtain ⟨hi, he⟩ := (hasID_iff_at_lowerBound h val.ID).mp hh
  refine ⟨hi, he, ?_⟩
  simp only [Service.Update, hf, List.getElem?_eq_getElem hi, setIndex, if_pos hi,
    Option.map_some', updatedRecord]
  by_cases hname : val.Name = "" <;> by_cases hprice : f64IsZero val.Price = true <;>
    simp [hname, hprice]

/-! ## The order invariant -/

theorem mem_take_lowerBound {xs : List Product} (h : SortedByID xs) (id : String)
    {p : Product} (hp : p ∈ xs.take (lowerBound xs id)) : p.ID < id := by
  obtain ⟨k, hk, rfl⟩ := List.mem_take_iff_getElem.mp hp
  have hk2 : k < lowerBound xs id ∧ k < xs.length := by
    simpa using hk
  exact (getElem_lt_iff_lt_lowerBound id xs h k hk2.2).mpr hk2.1

theorem mem_drop_lowerBound {xs : List Product} (h : SortedByID xs) (id : String)
    {p : Product} (hp : p ∈ xs.drop (lowerBound xs id)) : id ≤ p.ID := by
  obtain ⟨k, hk, rfl⟩ := List.mem_drop_iff_getElem.mp hp
  have hk2 : lowerBound xs id + k < xs.length := by omega
  have := getElem_lt_iff_lt_lowerBound id xs h _ hk2
  exact not_lt.mp (fun hlt => by have := this.mp hlt; omega)

theorem sorted_insert {xs : List Product} (h : SortedByID xs) (val : Product)
    (hn : ¬ HasID xs val.ID) :
    SortedByID (xs.take (lowerBound xs val.ID) ++ val :: xs.drop (lowerBound xs val.ID)) := by
  have hgt : ∀ p ∈ xs.drop (lowerBound xs val.ID), val.ID < p.ID := by
    intro p hp
    rcases lt_or_eq_of_le (mem_drop_lowerBound h val.ID hp) with hlt | heq
    · exact hlt
    · exact absurd ⟨p, List.mem_of_mem_drop hp, heq.symm⟩ hn
  unfold SortedByID
  rw [List.pairwise_append]
  refine ⟨h.sublist (List.take_sublist _ _), ?_, ?_⟩
  · rw [List.pairwise_cons]
    exact ⟨hgt, h.sublist (List.drop_sublist _ _)⟩
  · intro a ha b hb
    have hlt := mem_take_lowerBound h val.ID ha
    rcases List.mem_cons.mp hb with rfl | hb2
    · exact hlt
    · exact lt_trans hlt (hgt b hb2)

theorem sorted_remove {xs : List Product} (h : SortedByID xs) (i : Nat) :
    SortedByID (xs.take i ++ xs.drop (i + 1)) := by
  have hsub : (xs.take i ++ xs.drop (i + 1)).Sublist (xs.take i ++ xs.drop i) :=
    List.Sublist.append_left (List.drop_sublist_drop_left xs (Nat.le_succ i)) _
  rw [List.take_append_drop] at hsub
  exact h.sublist hsub

theorem sorted_set {xs : List Product} (h : SortedByID xs) (i : Nat) (hi : i < xs.length)
    (v : Product) (hv : v.ID = xs[i].ID) : SortedByID (xs.set i v) := by
  have hid : ∀ (k : Nat) (hk : k < (xs.set i v).length) (hk2 : k < xs.length),
      (xs.set i v)[k].ID = xs[k].ID := by
    intro k hk hk2
    rw [List.getElem_set]
    split
    · next heq => subst heq; exact hv
    · rfl
  unfold SortedByID
  rw [List.pairwise_iff_getElem]
  intro a b ha hb hab
  have ha2 : a < xs.length := by simpa using ha
  have hb2 : b < xs.length := by simpa using hb
  rw [hid a ha ha2, hid b hb hb2]
  exact List.pairwise_iff_getElem.mp h a b ha2 hb2 hab

/-- Every call on a sorted store returns normally and leaves a sorted store. -/
theorem step_sorted (s : Service) (h : SortedByID s.products) (op : Op) :
    ∃ t, s.step op = some t ∧ SortedByID t.products := by
  cases op with
  | add val =>
    by_cases hh : HasID s.products val.ID
    · exact ⟨s, by simp only [Service.step, Add_collision s val h hh, Option.map_some'], h⟩
    · exact ⟨_, by simp only [Service.step, Add_fresh s val h hh, Option.map_some'],
        sorted_insert h val hh⟩
  | update val =>
    by_cases hh : HasID s.products val.ID
    · obtain ⟨hi, he, hu⟩ := Update_present s val h hh
      by_cases hp : val.Name = "" ∧ f64IsZero val.Price = true
      · rw [if_pos hp] at hu
        exact ⟨s, by simp only [Service.step, hu, Option.map_some'], h⟩
      · rw [if_neg hp] at hu
        exact ⟨⟨s.products.set (lowerBound s.products val.ID)
            (updatedRecord s.products[lowerBound s.products val.ID] val)⟩,
          by simp only [Service.step, hu, Option.map_some'],
          sorted_set h _ hi _ rfl⟩
    · exact ⟨s, by simp only [Service.step, Update_absent s val h hh, Option.map_some'], h⟩
  | delete id =>
    by_cases hh : HasID s.products id
    · exact ⟨⟨s.products.take (lowerBound s.products id)
          ++ s.products.drop (lowerBound s.products id + 1)⟩,
        by simp only [Service.step, Delete_present s id h hh, Option.map_some'],
        sorted_remove h _⟩
    · exact ⟨s, by simp only [Service.step, Delete_absent s id h hh, Option.map_some'], h⟩
  | get id =>
    by_cases hh : HasID s.products id
    · obtain ⟨hi, _, hg⟩ := Get_present s id h hh
      exact ⟨s, by simp only [Service.step, hg, Option.map_some'], h⟩
    · exact ⟨s, by simp only [Service.step, Get_absent s id h hh, Option.map_some'], h⟩
  | getAll =>
    exact ⟨s, by simp only [Service.step, GetAll_eq, Option.map_some'], h⟩

/-- Every sequence of calls on a sorted store returns normally and leaves a
sorted store. -/
theorem run_sorted (ops : List Op) :
    ∀ (s : Service), SortedByID s.products →
      ∃ t, s.run ops = some t ∧ SortedByID t.products := by
  induction ops with
  | nil => intro s h; exact ⟨s, rfl, h⟩
  | cons op ops ih =>
    intro s h
    obtain ⟨t, ht, hts⟩ := step_sorted s h op
    obtain ⟨u, hu, hus⟩ := ih t hts
    exact ⟨u, by simp only [Service.run, ht, Option.some_bind, hu], hus⟩

theorem New_sorted : SortedByID New.products := List.Pairwise.nil

theorem reachable_sorted {s : Service} (hr : Reachable s) : SortedByID s.products := by
  obtain ⟨ops, hops⟩ := hr
  obtain ⟨t, ht, hts⟩ := run_sorted ops New New_sorted
  rw [hops] at ht
  cases ht
  exact hts

theorem run_append (ops₁ ops₂ : List Op) :
    ∀ (s : Service), s.run (ops₁ ++ ops₂) = (s.run ops₁).bind (fun t => t.run ops₂) := by
  induction ops₁ with
  | nil => intro s; rfl
  | cons op ops ih =>
    intro s
    show (s.step op).bind (fun t => t.run (ops ++ ops₂))
      = ((s.step op).bind (fun t => t.run ops)).bind (fun t => t.run ops₂)
    cases s.step op with
    | none => rfl
    | some t => simp only [Option.some_bind, ih]

/-- A call on a reachable store leaves a reachable store. -/
theorem reachable_step {s t : Service} (hr : Reachable s) (op : Op)
    (hstep : s.step op = some t) : Reachable t := by
  obtain ⟨ops, hops⟩ := hr
  refine ⟨ops ++ [op], ?_⟩
  rw [run_append, hops]
  simp only [Option.some_bind, Service.run, hstep]

/-- In a sorted list a record is determined by its id. -/
theorem sorted_unique {xs : List Product} (h : SortedByID xs) {p q : Product}
    (hp : p ∈ xs) (hq : q ∈ xs) (he : p.ID = q.ID) : p = q := by
  obtain ⟨i, hi, rfl⟩ := List.mem_iff_getElem.mp hp
  obtain ⟨k, hk, rfl⟩ := List.mem_iff_getElem.mp hq
  have := index_eq_of_ID_eq h hi hk he
  subst this
  rfl

theorem sorted_nodup_ids {xs : List Product} (h : SortedByID xs) :
    (xs.map Product.ID).Nodup := by
  unfold List.Nodup
  rw [List.pairwise_map]
  exact h.imp (fun hlt => ne_of_lt hlt)

/-! ## The sample store -/

theorem sampleStore_reachable : Reachable sampleStore := by
  have h1 : Reachable ⟨[banana]⟩ := ⟨[Op.add banana], rfl⟩
  have hs : SortedByID (Service.mk [banana]).products := List.pairwise_singleton _ _
  have hn : ¬ HasID (Service.mk [banana]).products apple.ID := by
    simp [HasID, apple, banana]
  have hlb : lowerBound [banana] apple.ID = 0 := by
    have : ¬ (banana.ID < apple.ID) := by
      rw [String.lt_iff_toList_lt]; decide
    simp only [lowerBound, List.countP_cons, List.countP_nil, decide_eq_false this]
    rfl
  have h2 := Add_fresh ⟨[banana]⟩ apple hs hn
  simp only [hlb, List.take_zero, List.drop_zero, List.nil_append] at h2
  exact reachable_step h1 (Op.add apple) (by simp only [Service.step, h2, Option.map_some']; rfl)

theorem sampleStore_has_apple : HasID sampleStore.products "a1" :=
  ⟨apple, List.mem_cons_self _ _, rfl⟩

theorem sampleStore_lacks_cherry : ¬ HasID sampleStore.products "c3" := by
  simp [HasID, sampleStore, apple, banana]

theorem apple_lt_banana : apple.ID < banana.ID := by
  rw [String.lt_iff_toList_lt]; decide

theorem banana_lt_cherry : banana.ID < cherry.ID := by
  rw [String.lt_iff_toList_lt]; decide

theorem apple_lt_cherry : apple.ID < cherry.ID := lt_trans apple_lt_banana banana_lt_cherry

theorem sampleList_sorted : SortedByID [apple, banana, cherry] := by
  unfold SortedByID
  simp only [List.pairwise_cons, List.mem_cons, List.mem_singleton, forall_eq_or_imp, forall_eq,
    List.not_mem_nil, false_implies, implies_true, List.Pairwise.nil, and_true]
  exact ⟨⟨apple_lt_banana, apple_lt_cherry⟩, banana_lt_cherry⟩

theorem sampleStore_lowerBound_apple : lowerBound sampleStore.products "a1" = 0 := by
  have h1 : ¬ (apple.ID < "a1") := lt_irrefl _
  have h2 : ¬ (banana.ID < "a1") := not_lt_of_gt apple_lt_banana
  simp only [lowerBound, sampleStore, List.countP_cons, List.countP_nil, decide_eq_false h1,
    decide_eq_false h2]
  rfl

theorem sampleStore_lowerBound_cherry : lowerBound sampleStore.products "c3" = 2 := by
  have h1 : apple.ID < "c3" := apple_lt_cherry
  have h2 : banana.ID < "c3" := banana_lt_cherry
  simp only [lowerBound, sampleStore, List.countP_cons, List.countP_nil, decide_eq_true h1,
    decide_eq_true h2]
  rfl

theorem sampleStore_Add_cherry :
    sampleStore.Add cherry = some (("c3", none), ⟨[apple, banana, cherry]⟩) := by
  have h := Add_fresh sampleStore cherry (reachable_sorted sampleStore_reachable)
    sampleStore_lacks_cherry
  rw [show cherry.ID = "c3" from rfl, sampleStore_lowerBound_cherry] at h
  exact h

theorem sampleStore_Update_price :
    sampleStore.Update ⟨"a1", "", 0x4023FAE147AE147B, 0⟩
      = some (none, ⟨[⟨"a1", "Apple", 0x4023FAE147AE147B, 1700000000⟩, banana]⟩) := by
  obtain ⟨hi, _, hu⟩ := Update_present sampleStore ⟨"a1", "", 0x4023FAE147AE147B, 0⟩
    (reachable_sorted sampleStore_reachable) sampleStore_has_apple
  rw [if_neg (by decide)] at hu
  simp only [sampleStore_lowerBound_apple] at hu
  exact hu

theorem sampleStore_lacks_123 : ¬ HasID sampleStore.products "123" := by
  simp [HasID, sampleStore, apple, banana]

/-- With an empty name and a zero price, `Update` of an id that occurs reports
`ErrorNoUpdateParams` and keeps the store. -/
theorem Update_present_no_params (s : Service) (val : Product) (h : SortedByID s.products)
    (hh : HasID s.products val.ID) (hname : val.Name = "")
    (hprice : f64IsZero val.Price = true) :
    s.Update val = some (some Error.ErrorNoUpdateParams, s) := by
  obtain ⟨_, _, hu⟩ := Update_present s val h hh
  rw [if_pos ⟨hname, hprice⟩] at hu
  exact hu

/-! ## The claims -/

/-- Claim C1: starting from the empty store, every finite sequence of calls
(Add with an arbitrary generated record, Update, Delete, and the two reads)
returns normally, and `GetAll` afterwards returns the records in strictly
ascending id order, so that no id occurs twice. -/
theorem GetAll_strictly_ascending_after_any_run (ops : List Op) :
    ∃ (s : Service) (out : List Product),
      New.run ops = some s ∧ s.GetAll = some ((out, none), s) ∧
      out.Pairwise (fun a b => a.ID < b.ID) ∧ (out.map Product.ID).Nodup := by
  obtain ⟨s, hs, hsorted⟩ := run_sorted ops New New_sorted
  exact ⟨s, s.products, hs, GetAll_eq s, hsorted, sorted_nodup_ids hsorted⟩

/-- Claim C2: on a record list sorted strictly ascending by id, `findIndex`
returns `(i, found)` where `i` is the smallest index whose id is `>=` the
query (`i` is the length when there is none), and `found` holds exactly when
`i` is in range and the record at `i` has the queried id. -/
theorem findIndex_lower_bound (xs : List Product) (id : String) (h : SortedByID xs) :
    ∃ (i : Nat) (found : Bool),
      Service.findIndex ⟨xs⟩ id = some (i, found) ∧ i ≤ xs.length ∧
      (∀ (k : Nat) (hk : k < xs.length), k < i → xs[k].ID < id) ∧
      (∀ hi : i < xs.length, xs[i].ID ≥ id) ∧
      (found = true ↔ ∃ hi : i < xs.length, xs[i].ID = id) := by
  obtain ⟨found, hf, hiff⟩ := findIndex_sorted ⟨xs⟩ id h
  refine ⟨lowerBound xs id, found, hf, lowerBound_le_length xs id, ?_, ?_, ?_⟩
  · intro k hk hlt
    exact (getElem_lt_iff_lt_lowerBound id xs h k hk).mpr hlt
  · intro hi
    exact not_lt.mp (fun hlt =>
      Nat.lt_irrefl _ ((getElem_lt_iff_lt_lowerBound id xs h _ hi).mp hlt))
  · exact hiff.trans (hasID_iff_at_lowerBound h id)

theorem findIndex_lower_bound_witness :
    SortedByID [apple, banana, cherry] ∧
    ∃ (i : Nat) (found : Bool),
      Service.findIndex ⟨[apple, banana, cherry]⟩ "b2" = some (i, found) ∧
      i ≤ [apple, banana, cherry].length ∧
      (∀ (k : Nat) (hk : k < [apple, banana, cherry].length), k < i →
        [apple, banana, cherry][k].ID < "b2") ∧
      (∀ hi : i < [apple, banana, cherry].length, [apple, banana, cherry][i].ID ≥ "b2") ∧
      (found = true ↔
        ∃ hi : i < [apple, banana, cherry].length, [apple, banana, cherry][i].ID = "b2") :=
  ⟨sampleList_sorted, findIndex_lower_bound [apple, banana, cherry] "b2" sampleList_sorted⟩

/-- Claim C3: in a reachable store `Get id` succeeds exactly when some record
of `GetAll` has that id, and the record it then returns is that record of
`GetAll` (the only one with the id, equal in all four fields). -/
theorem Get_succeeds_iff_listed (s : Service) (hr : Reachable s) (id : String) :
    ∃ (out : List Product) (r : Product × Option Error),
      s.GetAll = some ((out, none), s) ∧ s.Get id = some (r, s) ∧
      (r.2 = none ↔ ∃ q ∈ out, q.ID = id) ∧
      (r.2 = none → r.1 ∈ out ∧ r.1.ID = id ∧ ∀ q ∈ out, q.ID = id → q = r.1) := by
  have hs := reachable_sorted hr
  by_cases hh : HasID s.products id
  · obtain ⟨hi, he, hg⟩ := Get_present s id hs hh
    refine ⟨s.products, (s.products[lowerBound s.products id], none), GetAll_eq s, hg, ?_, ?_⟩
    · exact ⟨fun _ => hh, fun _ => rfl⟩
    · intro _
      refine ⟨List.getElem_mem hi, he, ?_⟩
      intro q hq hqid
      exact sorted_unique hs hq (List.getElem_mem hi) (hqid.trans he.symm)
  · refine ⟨s.products, (Product.zero, some Error.ErrNoRows), GetAll_eq s,
      Get_absent s id hs hh, ?_, ?_⟩
    · exact ⟨fun hc => (by cases hc), fun hc => absurd hc hh⟩
    · intro hc; cases hc

theorem Get_succeeds_iff_listed_witness :
    Reachable sampleStore ∧
    ∃ (out : List Product) (r : Product × Option Error),
      sampleStore.GetAll = some ((out, none), sampleStore) ∧
      sampleStore.Get "a1" = some (r, sampleStore) ∧
      (r.2 = none ↔ ∃ q ∈ out, q.ID = "a1") ∧
      (r.2 = none → r.1 ∈ out ∧ r.1.ID = "a1" ∧ ∀ q ∈ out, q.ID = "a1" → q = r.1) :=
  ⟨sampleStore_reachable, Get_succeeds_iff_listed sampleStore sampleStore_reachable "a1"⟩

/-- Claim C4: in a reachable store, when `Add` of the generated record `val`
returns the id `X` without error, `Get X` on the resulting store succeeds and
returns a record with id `X` and the name, price and timestamp of `val`. -/
theorem Get_after_Add (s : Service) (hr : Reachable s) (val : Product) (X : String)
    (t : Service) (hadd : s.Add val = some ((X, none), t)) :
    ∃ p : Product, t.Get X = some ((p, none), t) ∧ p.ID = X ∧ p.Name = val.Name ∧
      p.Price = val.Price ∧ p.CreatedAt = val.CreatedAt := by
  have hs := reachable_sorted hr
  by_cases hh : HasID s.products val.ID
  · rw [Add_collision s val hs hh] at hadd
    cases hadd
  · rw [Add_fresh s val hs hh] at hadd
    simp only [Option.some.injEq, Prod.mk.injEq, and_true] at hadd
    obtain ⟨hX, ht⟩ := hadd
    subst hX
    have hts : SortedByID t.products := by
      rw [← ht]; exact sorted_insert hs val hh
    have hmem : val ∈ t.products := by
      rw [← ht]; simp
    obtain ⟨hi, he, hg⟩ := Get_present t val.ID hts ⟨val, hmem, rfl⟩
    have hp : t.products[lowerBound t.products val.ID] = val :=
      sorted_unique hts (List.getElem_mem hi) hmem he
    rw [hp] at hg
    exact ⟨val, hg, rfl, rfl, rfl, rfl⟩

theorem Get_after_Add_witness :
    Reachable sampleStore ∧
    sampleStore.Add cherry = some (("c3", none), ⟨[apple, banana, cherry]⟩) ∧
    ∃ p : Product,
      Service.Get ⟨[apple, banana, cherry]⟩ "c3"
        = some ((p, none), ⟨[apple, banana, cherry]⟩) ∧
      p.ID = "c3" ∧ p.Name = cherry.Name ∧ p.Price = cherry.Price ∧
      p.CreatedAt = cherry.CreatedAt :=
  ⟨sampleStore_reachable, sampleStore_Add_cherry,
    Get_after_Add sampleStore sampleStore_reachable cherry "c3" ⟨[apple, banana, cherry]⟩
      sampleStore_Add_cherry⟩

/-- Claim C5 fails on the code: on the sample store an `Update` with an empty
name and a zero price for the id `"123"`, which the store does not hold,
returns `ErrorNoRowsUpdated`, not `ErrorNoUpdateParams`: `Update` looks the id
up before it checks the parameters. -/
theorem Update_no_params_absent_id_is_NoRowsUpdated :
    Reachable sampleStore ∧ ¬ HasID sampleStore.products "123" ∧
    (⟨"123", "", 0, 0⟩ : Product).Name = "" ∧
    f64IsZero (⟨"123", "", 0, 0⟩ : Product).Price = true ∧
    sampleStore.Update ⟨"123", "", 0, 0⟩ = some (some Error.ErrorNoRowsUpdated, sampleStore) ∧
    ∀ t : Service,
      sampleStore.Update ⟨"123", "", 0, 0⟩ ≠ some (some Error.ErrorNoUpdateParams, t) := by
  have hu := Update_absent sampleStore ⟨"123", "", 0, 0⟩
    (reachable_sorted sampleStore_reachable) sampleStore_lacks_123
  refine ⟨sampleStore_reachable, sampleStore_lacks_123, rfl, by decide, hu, ?_⟩
  intro t hc
  rw [hu] at hc
  cases hc

/-- Claim C6: in a reachable store, `Update` of an id that occurs, with an
empty name and a zero price, returns `ErrorNoUpdateParams` and leaves the whole
record sequence unchanged. -/
theorem Update_no_params_present_unchanged (s : Service) (hr : Reachable s) (val : Product)
    (hh : HasID s.products val.ID) (hname : val.Name = "")
    (hprice : f64IsZero val.Price = true) :
    s.Update val = some (some Error.ErrorNoUpdateParams, s) :=
  Update_present_no_params s val (reachable_sorted hr) hh hname hprice

theorem Update_no_params_present_unchanged_witness :
    Reachable sampleStore ∧ HasID sampleStore.products "a1" ∧
    (⟨"a1", "", 0x8000000000000000, 0⟩ : Product).Name = "" ∧
    f64IsZero (⟨"a1", "", 0x8000000000000000, 0⟩ : Product).Price = true ∧
    sampleStore.Update ⟨"a1", "", 0x8000000000000000, 0⟩
      = some (some Error.ErrorNoUpdateParams, sampleStore) :=
  ⟨sampleStore_reachable, sampleStore_has_apple, rfl, by decide,
    Update_no_params_present_unchanged sampleStore sampleStore_reachable
      ⟨"a1", "", 0x8000000000000000, 0⟩ sampleStore_has_apple rfl (by decide)⟩

/-- Claim C7: in a reachable store, a successful `Update` of an id that occurs
changes only the record at that id's position `i`: the new record keeps the id
and timestamp, takes the supplied name when it is non-empty and the supplied
price when it is non-zero, and keeps the old name or price otherwise.  The
number of records and every other position are unchanged. -/
theorem Update_success_effect (s : Service) (hr : Reachable s) (val : Product)
    (hh : HasID s.products val.ID) (t : Service) (hup : s.Update val = some (none, t)) :
    ∃ (i : Nat) (hi : i < s.products.length),
      s.products[i].ID = val.ID ∧
      t.products = s.products.set i
        { ID := s.products[i].ID
          Name := if val.Name = "" then s.products[i].Name else val.Name
          Price := if f64IsZero val.Price then s.products[i].Price else val.Price
          CreatedAt := s.products[i].CreatedAt } ∧
      t.products.length = s.products.length ∧
      (∀ k : Nat, k ≠ i → t.products[k]? = s.products[k]?) := by
  obtain ⟨hi, he, hu⟩ := Update_present s val (reachable_sorted hr) hh
  by_cases hp : val.Name = "" ∧ f64IsZero val.Price = true
  · rw [if_pos hp, hup] at hu
    cases hu
  · rw [if_neg hp, hup] at hu
    simp only [Option.some.injEq, Prod.mk.injEq, true_and] at hu
    subst hu
    refine ⟨lowerBound s.products val.ID, hi, he, rfl, ?_, ?_⟩
    · simp only [List.length_set]
    · intro k hk
      simp only [List.getElem?_set, if_neg (Ne.symm hk)]

theorem Update_success_effect_witness :
    Reachable sampleStore ∧ HasID sampleStore.products "a1" ∧
    sampleStore.Update ⟨"a1", "", 0x4023FAE147AE147B, 0⟩
      = some (none, ⟨[⟨"a1", "Apple", 0x4023FAE147AE147B, 1700000000⟩, banana]⟩) ∧
    ∃ (i : Nat) (hi : i < sampleStore.products.length),
      sampleStore.products[i].ID = "a1" ∧
      [⟨"a1", "Apple", 0x4023FAE147AE147B, 1700000000⟩, banana] = sampleStore.products.set i
        { ID := sampleStore.products[i].ID
          Name := if "" = "" then sampleStore.products[i].Name else ""
          Price := if f64IsZero 0x4023FAE147AE147B then sampleStore.products[i].Price
            else 0x4023FAE147AE147B
          CreatedAt := sampleStore.products[i].CreatedAt } ∧
      [⟨"a1", "Apple", 0x4023FAE147AE147B, 1700000000⟩, banana].length
        = sampleStore.products.length ∧
      (∀ k : Nat, k ≠ i →
        [⟨"a1", "Apple", 0x4023FAE147AE147B, 1700000000⟩, banana][k]?
          = sampleStore.products[k]?) :=
  ⟨sampleStore_reachable, sampleStore_has_apple, sampleStore_Update_price,
    Update_success_effect sampleStore sampleStore_reachable ⟨"a1", "", 0x4023FAE147AE147B, 0⟩
      sampleStore_has_apple _ sampleStore_Update_price⟩

/-- Claim C8: in a reachable store, `Update` of an id that does not occur, with
a non-empty name or a non-zero price, returns `ErrorNoRowsUpdated` and leaves
the record sequence unchanged. -/
theorem Update_absent_NoRowsUpdated (s : Service) (hr : Reachable s) (val : Product)
    (hn : ¬ HasID s.products val.ID)
    (_hparams : val.Name ≠ "" ∨ f64IsZero val.Price = false) :
    s.Update val = some (some Error.ErrorNoRowsUpdated, s) :=
  Update_absent s val (reachable_sorted hr) hn

theorem Update_absent_NoRowsUpdated_witness :
    Reachable sampleStore ∧ ¬ HasID sampleStore.products "123" ∧
    ((⟨"123", "", 0x4058FF5C28F5C28F, 0⟩ : Product).Name ≠ "" ∨
      f64IsZero (⟨"123", "", 0x4058FF5C28F5C28F, 0⟩ : Product).Price = false) ∧
    sampleStore.Update ⟨"123", "", 0x4058FF5C28F5C28F, 0⟩
      = some (some Error.ErrorNoRowsUpdated, sampleStore) :=
  ⟨sampleStore_reachable, sampleStore_lacks_123, Or.inr (by decide),
    Update_absent_NoRowsUpdated sampleStore sampleStore_reachable
      ⟨"123", "", 0x4058FF5C28F5C28F, 0⟩ sampleStore_lacks_123 (Or.inr (by decide))⟩

/-- Claim C9: in a reachable store, `Delete` of an id that does not occur
returns `ErrorNoRowsDeleted` and leaves the record sequence unchanged. -/
theorem Delete_absent_NoRowsDeleted (s : Service) (hr : Reachable s) (id : String)
    (hn : ¬ HasID s.products id) :
    s.Delete id = some (some Error.ErrorNoRowsDeleted, s) :=
  Delete_absent s id (reachable_sorted hr) hn

theorem Delete_absent_NoRowsDeleted_witness :
    Reachable sampleStore ∧ ¬ HasID sampleStore.products "c3" ∧
    sampleStore.Delete "c3" = some (some Error.ErrorNoRowsDeleted, sampleStore) :=
  ⟨sampleStore_reachable, sampleStore_lacks_cherry,
    Delete_absent_NoRowsDeleted sampleStore sampleStore_reachable "c3"
      sampleStore_lacks_cherry⟩

/-- Claim C10: in a reachable store, `Get` of an id that does not occur returns
the zero-valued `Product` together with `sql.ErrNoRows`; and `Get` of any id,
found or not, returns normally and leaves the record sequence unchanged. -/
theorem Get_absent_ErrNoRows_and_store_kept (s : Service) (hr : Reachable s) (id : String) :
    (¬ HasID s.products id →
      s.Get id = some ((⟨"", "", 0, 0⟩, some Error.ErrNoRows), s)) ∧
    ∃ r : Product × Option Error, s.Get id = some (r, s) := by
  have hs := reachable_sorted hr
  by_cases hh : HasID s.products id
  · obtain ⟨_, _, hg⟩ := Get_present s id hs hh
    exact ⟨fun hn => absurd hh hn, _, hg⟩
  · exact ⟨fun _ => Get_absent s id hs hh, _, Get_absent s id hs hh⟩

theorem Get_absent_ErrNoRows_and_store_kept_witness :
    Reachable sampleStore ∧
    ((¬ HasID sampleStore.products "c3" →
      sampleStore.Get "c3" = some ((⟨"", "", 0, 0⟩, some Error.ErrNoRows), sampleStore)) ∧
    ∃ r : Product × Option Error, sampleStore.Get "c3" = some (r, sampleStore)) :=
  ⟨sampleStore_reachable,
    Get_absent_ErrNoRows_and_store_kept sampleStore sampleStore_reachable "c3"⟩

/-! ## Membership after an insertion, a removal and an overwrite -/

theorem mem_insert_of_mem {xs : List Product} (i : Nat) (val : Product) {p : Product}
    (hp : p ∈ xs) : p ∈ xs.take i ++ val :: xs.drop i := by
  rw [← List.take_append_drop i xs] at hp
  rcases List.mem_append.mp hp with h1 | h2
  · exact List.mem_append_left _ h1
  · exact List.mem_append_right _ (List.mem_cons_of_mem _ h2)

theorem mem_insert_self (xs : List Product) (i : Nat) (val : Product) :
    val ∈ xs.take i ++ val :: xs.drop i :=
  List.mem_append_right _ (List.mem_cons_self _ _)

/-- After the removal of the record at the lower bound of an id that occurs, a
sorted list no longer holds the id. -/
theorem not_hasID_remove {xs : List Product} (h : SortedByID xs) (id : String)
    (hh : HasID xs id) :
    ¬ HasID (xs.take (lowerBound xs id) ++ xs.drop (lowerBound xs id + 1)) id := by
  obtain ⟨hi, he⟩ := (hasID_iff_at_lowerBound h id).mp hh
  rintro ⟨p, hp, hpid⟩
  rcases List.mem_append.mp hp with h1 | h2
  · have := mem_take_lowerBound h id h1
    rw [hpid] at this
    exact lt_irrefl _ this
  · obtain ⟨k, hk, rfl⟩ := List.mem_drop_iff_getElem.mp h2
    have hlt : xs[lowerBound xs id].ID < xs[lowerBound xs id + 1 + k].ID :=
      List.pairwise_iff_getElem.mp h _ _ hi (by omega) (by omega)
    rw [he, hpid] at hlt
    exact lt_irrefl _ hlt

/-- A record other than the one at position `i` survives the removal of
position `i`. -/
theorem mem_remove_of_ne {xs : List Product} (i : Nat) (hi : i < xs.length) {p : Product}
    (hp : p ∈ xs) (hne : p ≠ xs[i]) : p ∈ xs.take i ++ xs.drop (i + 1) := by
  have hsplit : xs = xs.take i ++ xs[i] :: xs.drop (i + 1) := by
    rw [← List.drop_eq_getElem_cons hi, List.take_append_drop]
  rw [hsplit] at hp
  rcases List.mem_append.mp hp with h1 | h2
  · exact List.mem_append_left _ h1
  · rcases List.mem_cons.mp h2 with h3 | h4
    · exact absurd h3 hne
    · exact List.mem_append_right _ h4

/-- After an overwrite of position `i`, a record of the old list is still there
or was the one at position `i`. -/
theorem mem_set_or {xs : List Product} (i : Nat) (hi : i < xs.length) (v : Product)
    {p : Product} (hp : p ∈ xs) : p ∈ xs.set i v ∨ p = xs[i] := by
  obtain ⟨k, hk, rfl⟩ := List.mem_iff_getElem.mp hp
  by_cases hik : i = k
  · subst hik; exact Or.inr rfl
  · left
    have hk2 : k < (xs.set i v).length := by simpa using hk
    have : (xs.set i v)[k] = xs[k] := by
      rw [List.getElem_set]; simp only [hik, if_false]
    rw [← this]
    exact List.getElem_mem hk2

theorem mem_set_self {xs : List Product} (i : Nat) (hi : i < xs.length) (v : Product) :
    v ∈ xs.set i v := by
  have hi2 : i < (xs.set i v).length := by simpa using hi
  have hv : (xs.set i v)[i] = v := List.getElem_set_self hi2
  have hm : (xs.set i v)[i] ∈ xs.set i v := List.getElem_mem hi2
  rw [hv] at hm
  exact hm

/-! ## Sequences of `Add` calls -/

theorem returnedIDs_cons_ok (id : String) (rs : List (String × Option Error)) :
    returnedIDs ((id, none) :: rs) = id :: returnedIDs rs := by
  simp [returnedIDs, List.filter_cons]

theorem returnedIDs_cons_err (id : String) (e : Error) (rs : List (String × Option Error)) :
    returnedIDs ((id, some e) :: rs) = returnedIDs rs := by
  simp [returnedIDs, List.filter_cons]

theorem length_insert (xs : List Product) (i : Nat) (val : Product) :
    (xs.take i ++ val :: xs.drop i).length = xs.length + 1 := by
  simp only [List.length_append, List.length_take, List.length_cons, List.length_drop]
  omega

/-- A sequence of `Add` calls on a sorted store returns normally; the ids it
returns are distinct and new to the store, and the store grows by one record
for each of them. -/
theorem addAll_sorted (vals : List Product) :
    ∀ (s : Service), SortedByID s.products →
      ∃ (rs : List (String × Option Error)) (t : Service),
        s.addAll vals = some (rs, t) ∧ SortedByID t.products ∧ rs.length = vals.length ∧
        t.products.length = s.products.length + (returnedIDs rs).length ∧
        (returnedIDs rs).Nodup ∧ ∀ id ∈ returnedIDs rs, ¬ HasID s.products id := by
  induction vals with
  | nil =>
    intro s h
    exact ⟨[], s, rfl, h, rfl, rfl, List.nodup_nil, fun _ hid => by cases hid⟩
  | cons val vals ih =>
    intro s h
    by_cases hh : HasID s.products val.ID
    · obtain ⟨rs, t, hrun, hts, hlen, hcount, hnd, hnew⟩ := ih s h
      refine ⟨("", some Error.productAlreadyExists) :: rs, t, ?_, hts, ?_, ?_, ?_, ?_⟩
      · simp only [Service.addAll, Add_collision s val h hh, hrun]
      · simp only [List.length_cons, hlen]
      · rw [returnedIDs_cons_err]; exact hcount
      · rw [returnedIDs_cons_err]; exact hnd
      · rw [returnedIDs_cons_err]; exact hnew
    · have hs1 := sorted_insert h val hh
      obtain ⟨rs, t, hrun, hts, hlen, hcount, hnd, hnew⟩ :=
        ih ⟨s.products.take (lowerBound s.products val.ID)
          ++ val :: s.products.drop (lowerBound s.products val.ID)⟩ hs1
      refine ⟨(val.ID, none) :: rs, t, ?_, hts, ?_, ?_, ?_, ?_⟩
      · simp only [Service.addAll, Add_fresh s val h hh, hrun]
      · simp only [List.length_cons, hlen]
      · rw [returnedIDs_cons_ok, hcount, length_insert, List.length_cons]
        omega
      · rw [returnedIDs_cons_ok, List.nodup_cons]
        refine ⟨fun hmem => hnew _ hmem ⟨val, mem_insert_self _ _ _, rfl⟩, hnd⟩
      · rw [returnedIDs_cons_ok]
        intro id hid
        rcases List.mem_cons.mp hid with rfl | hid2
        · exact hh
        · intro hc
          obtain ⟨p, hp, hpid⟩ := hc
          exact hnew id hid2 ⟨p, mem_insert_of_mem _ _ hp, hpid⟩

/-! ## Stores with no record or one record -/

theorem lowerBound_singleton_self (p : Product) : lowerBound [p] p.ID = 0 := by
  simp only [lowerBound, List.countP_cons, List.countP_nil, decide_eq_false (lt_irrefl p.ID)]
  rfl

theorem singleton_sorted (p : Product) : SortedByID (Service.mk [p]).products :=
  List.pairwise_singleton _ _

theorem singleton_hasID (p : Product) : HasID (Service.mk [p]).products p.ID :=
  ⟨p, List.mem_singleton_self p, rfl⟩

theorem nil_not_hasID (id : String) : ¬ HasID (Service.mk []).products id := by
  rintro ⟨p, hp, _⟩
  cases hp

theorem Add_New (val : Product) : New.Add val = some ((val.ID, none), ⟨[val]⟩) := by
  have h := Add_fresh New val New_sorted (nil_not_hasID val.ID)
  simpa [New] using h

theorem Update_singleton (p val : Product) (hid : val.ID = p.ID)
    (hparams : ¬ (val.Name = "" ∧ f64IsZero val.Price = true)) :
    Service.Update ⟨[p]⟩ val = some (none, ⟨[updatedRecord p val]⟩) := by
  have hh : HasID (Service.mk [p]).products val.ID := by
    rw [hid]; exact singleton_hasID p
  obtain ⟨_, _, hu⟩ := Update_present ⟨[p]⟩ val (singleton_sorted p) hh
  rw [if_neg hparams] at hu
  simp only [hid, lowerBound_singleton_self] at hu
  exact hu

theorem Get_singleton (p : Product) :
    Service.Get ⟨[p]⟩ p.ID = some ((p, none), ⟨[p]⟩) := by
  obtain ⟨_, _, hg⟩ := Get_present ⟨[p]⟩ p.ID (singleton_sorted p) (singleton_hasID p)
  simp only [lowerBound_singleton_self] at hg
  exact hg

theorem Delete_singleton (p : Product) :
    Service.Delete ⟨[p]⟩ p.ID = some (none, ⟨[]⟩) := by
  have hd := Delete_present ⟨[p]⟩ p.ID (singleton_sorted p) (singleton_hasID p)
  simp only [lowerBound_singleton_self] at hd
  exact hd

/-! ## The store in memory -/

theorem length_copySlice {α : Type} (dst src : List α) :
    (copySlice dst src).length = dst.length := by
  simp only [copySlice, List.length_append, List.length_take, List.length_drop]
  omega

theorem length_setIndex {α : Type} {xs ys : List α} {i : Nat} {v : α}
    (h : setIndex xs i v = some ys) : ys.length = xs.length := by
  unfold setIndex at h
  split at h
  · cases h; simp only [List.length_set]
  · cases h

theorem Mem.heap_length_store (m : Mem) (v : List Product) :
    (m.store v).heap.length = m.heap.length := by
  unfold Mem.store
  cases m.ptr with
  | none => rfl
  | some a => simp only [List.length_set]

theorem Mem.ptr_store (m : Mem) (v : List Product) : (m.store v).ptr = m.ptr := by
  unfold Mem.store
  cases h : m.ptr with
  | none => simp only [h]
  | some a => rfl

theorem Mem.len_store (m : Mem) (v : List Product) : (m.store v).len = v.length := by
  unfold Mem.store
  cases m.ptr with
  | none => rfl
  | some a => rfl

/-- A write through `s.products` leaves every other array as it is. -/
theorem Mem.getD_store_other (m : Mem) (v : List Product) (a : Nat) (ha : m.ptr ≠ some a) :
    (m.store v).heap.getD a [] = m.heap.getD a [] := by
  unfold Mem.store
  cases h : m.ptr with
  | none => rfl
  | some b =>
    have hba : b ≠ a := fun hc => ha (by rw [h, hc])
    simp only [List.getD_eq_getElem?_getD, List.getElem?_set_ne hba]

theorem Mem.array_store (m : Mem) (hwf : m.WF) (v : List Product)
    (hv : v.length ≤ m.array.length) :
    (m.store v).array = v ++ m.array.drop v.length := by
  cases h : m.ptr with
  | none =>
    have harr : m.array = [] := by simp only [Mem.array, h]
    have hv0 : v = [] := by
      rw [harr] at hv
      exact List.eq_nil_of_length_eq_zero (Nat.le_zero.mp hv)
    simp only [Mem.store, Mem.array, h, hv0]
    rfl
  | some a =>
    have ha : a < m.heap.length := hwf.2 a h
    simp only [Mem.store, Mem.array, h, List.getD_eq_getElem?_getD,
      List.getElem?_set_self ha, Option.getD_some]

theorem Mem.contents_store (m : Mem) (hwf : m.WF) (v : List Product)
    (hv : v.length ≤ m.array.length) : (m.store v).contents = v := by
  simp only [Mem.contents, Mem.array_store m hwf v hv, Mem.len_store, List.take_left]

theorem Mem.WF_store (m : Mem) (hwf : m.WF) (v : List Product)
    (hv : v.length ≤ m.array.length) : (m.store v).WF := by
  refine ⟨?_, ?_⟩
  · rw [Mem.array_store m hwf v hv, Mem.len_store]
    simp only [List.length_append, List.length_drop]
    omega
  · intro a ha
    rw [Mem.ptr_store] at ha
    rw [Mem.heap_length_store]
    exact hwf.2 a ha

theorem Mem.length_contents (m : Mem) (hwf : m.WF) : m.contents.length = m.len := by
  simp only [Mem.contents, List.length_take]
  exact Nat.min_eq_left hwf.1

theorem Mem.append_spec (m : Mem) (hwf : m.WF) (growth : Nat → Nat) (x : Product) :
    (m.append growth x).WF ∧ (m.append growth x).contents = m.contents ++ [x] := by
  have hlen := Mem.length_contents m hwf
  unfold Mem.append
  by_cases hcap : m.len < m.array.length
  · rw [if_pos hcap]
    have hv : (m.contents ++ [x]).length ≤ m.array.length := by
      simp only [List.length_append, List.length_singleton, hlen]; omega
    exact ⟨Mem.WF_store m hwf _ hv, Mem.contents_store m hwf _ hv⟩
  · rw [if_neg hcap]
    refine ⟨⟨?_, ?_⟩, ?_⟩
    · simp [Mem.array, hlen]
    · intro a ha
      simp only [Option.some.injEq] at ha
      simp only [List.length_append, List.length_singleton]
      omega
    · show (List.getD (m.heap ++ [m.contents ++ [x]
          ++ List.replicate (growth (m.len + 1)) Product.zero]) m.heap.length []).take
        (m.len + 1) = m.contents ++ [x]
      rw [List.getD_append_right _ _ _ _ (le_refl _), Nat.sub_self]
      show (m.contents ++ [x] ++ List.replicate (growth (m.len + 1)) Product.zero).take
        (m.len + 1) = m.contents ++ [x]
      exact List.take_left' (by simp only [List.length_append, List.length_singleton, hlen])

/-- What `Add` does to the memory: nothing, or one `append` and then writes
through `s.products` that keep its length. -/
theorem Mem.Add_shape {m t : Mem} {growth : Nat → Nat} {val : Product}
    {r : String × Option Error} (h : m.Add growth val = some (r, t)) :
    t = m ∨ ∃ zs : List Product, t = (m.append growth Product.zero).store zs ∧
      zs.length = (m.append growth Product.zero).contents.length := by
  unfold Mem.Add at h
  split at h
  · cases h
  · simp only [Option.some.injEq, Prod.mk.injEq] at h
    exact Or.inl h.2.symm
  · dsimp only at h
    split at h
    · next hle =>
      split at h
      · cases h
      · next zs hzs =>
        simp only [Option.some.injEq, Prod.mk.injEq] at h
        refine Or.inr ⟨zs, h.2.symm, ?_⟩
        rw [length_setIndex hzs]
        simp only [List.length_append, List.length_take, length_copySlice, List.length_drop]
        omega
    · cases h

/-- What `Update` does to the memory: nothing, or a write through `s.products`
that keeps its length. -/
theorem Mem.Update_shape {m t : Mem} {val : Product} {r : Option Error}
    (h : m.Update val = some (r, t)) :
    t = m ∨ ∃ xs : List Product, t = m.store xs ∧ xs.length = m.contents.length := by
  have hset : ∀ (v : Product) (i : Nat),
      (setIndex m.contents i v).map (fun xs => ((none : Option Error), m.store xs))
        = some (r, t) →
      ∃ xs : List Product, t = m.store xs ∧ xs.length = m.contents.length := by
    intro v i hv
    cases hs : setIndex m.contents i v with
    | none => rw [hs] at hv; cases hv
    | some xs =>
      rw [hs] at hv
      simp only [Option.map_some', Option.some.injEq, Prod.mk.injEq] at hv
      exact ⟨xs, hv.2.symm, length_setIndex hs⟩
  unfold Mem.Update at h
  split at h
  · cases h
  · simp only [Option.some.injEq, Prod.mk.injEq] at h
    exact Or.inl h.2.symm
  · split at h
    · cases h
    · split at h
      · exact Or.inr (hset _ _ h)
      · split at h
        · exact Or.inr (hset _ _ h)
        · split at h
          · exact Or.inr (hset _ _ h)
          · simp only [Option.some.injEq, Prod.mk.injEq] at h
            exact Or.inl h.2.symm

/-- What `Delete` does to the memory: nothing, or a write through `s.products`
that makes it shorter. -/
theorem Mem.Delete_shape {m t : Mem} {id : String} {r : Option Error}
    (h : m.Delete id = some (r, t)) :
    t = m ∨ ∃ xs : List Product, t = m.store xs ∧ xs.length ≤ m.contents.length := by
  unfold Mem.Delete at h
  split at h
  · cases h
  · simp only [Option.some.injEq, Prod.mk.injEq] at h
    exact Or.inl h.2.symm
  · split at h
    · simp only [Option.some.injEq, Prod.mk.injEq] at h
      refine Or.inr ⟨_, h.2.symm, ?_⟩
      simp only [List.length_append, List.length_take, List.length_drop]
      omega
    · cases h

/-- `Get` leaves the memory as it is. -/
theorem Mem.Get_shape {m t : Mem} {id : String} {r : Product × Option Error}
    (h : m.Get id = some (r, t)) : t = m := by
  unfold Mem.Get at h
  split at h
  · cases h
  · simp only [Option.some.injEq, Prod.mk.injEq] at h
    exact h.2.symm
  · split at h
    · cases h
    · simp only [Option.some.injEq, Prod.mk.injEq] at h
      exact h.2.symm

theorem Mem.apart_store {m : Mem} {a : Nat} (v : List Product) (h : m.Apart a) :
    (m.store v).Apart a ∧ (m.store v).heap.getD a [] = m.heap.getD a [] := by
  refine ⟨⟨?_, ?_, ?_⟩, Mem.getD_store_other m v a h.2.1⟩
  · rw [Mem.heap_length_store]; exact h.1
  · rw [Mem.ptr_store]; exact h.2.1
  · intro b hb
    rw [Mem.ptr_store] at hb
    rw [Mem.heap_length_store]
    exact h.2.2 b hb

theorem Mem.apart_append {m : Mem} {a : Nat} (growth : Nat → Nat) (x : Product)
    (h : m.Apart a) :
    (m.append growth x).Apart a ∧ (m.append growth x).heap.getD a [] = m.heap.getD a [] := by
  unfold Mem.append
  by_cases hcap : m.len < m.array.length
  · rw [if_pos hcap]
    exact Mem.apart_store _ h
  · rw [if_neg hcap]
    refine ⟨⟨?_, ?_, ?_⟩, ?_⟩
    · simp only [List.length_append, List.length_singleton]
      exact Nat.lt_succ_of_lt h.1
    · intro hc
      simp only [Option.some.injEq] at hc
      exact absurd hc (Nat.ne_of_gt h.1)
    · intro b hb
      simp only [Option.some.injEq] at hb
      simp only [List.length_append, List.length_singleton]
      omega
    · exact List.getD_append _ _ _ _ h.1

theorem Mem.apart_alloc {m : Mem} {a : Nat} (arr : List Product) (h : m.Apart a) :
    Mem.Apart { m with heap := m.heap ++ [arr] } a ∧
      List.getD (m.heap ++ [arr]) a [] = m.heap.getD a [] := by
  refine ⟨⟨?_, h.2.1, ?_⟩, List.getD_append _ _ _ _ h.1⟩
  · simp only [List.length_append, List.length_singleton]
    exact Nat.lt_succ_of_lt h.1
  · intro b hb
    simp only [List.length_append, List.length_singleton]
    exact Nat.lt_succ_of_lt (h.2.2 b hb)

/-- A call writes neither to an array that is apart from `s.products` nor
makes `s.products` point to it. -/
theorem Mem.step_apart {m t : Mem} {growth : Nat → Nat} {a : Nat} (op : Op)
    (h : m.Apart a) (hs : m.step growth op = some t) :
    t.Apart a ∧ t.heap.getD a [] = m.heap.getD a [] := by
  cases op with
  | add val =>
    simp only [Mem.step] at hs
    cases hop : m.Add growth val with
    | none => rw [hop] at hs; cases hs
    | some rt =>
      rw [hop] at hs
      simp only [Option.map_some', Option.some.injEq] at hs
      rcases Mem.Add_shape (r := rt.1) (t := rt.2) hop with h1 | ⟨zs, h2, _⟩
      · rw [← hs, h1]; exact ⟨h, rfl⟩
      · rw [← hs, h2]
        have ha := Mem.apart_append growth Product.zero h
        have hb := Mem.apart_store zs ha.1
        exact ⟨hb.1, hb.2.trans ha.2⟩
  | update val =>
    simp only [Mem.step] at hs
    cases hop : m.Update val with
    | none => rw [hop] at hs; cases hs
    | some rt =>
      rw [hop] at hs
      simp only [Option.map_some', Option.some.injEq] at hs
      rcases Mem.Update_shape (r := rt.1) (t := rt.2) hop with h1 | ⟨xs, h2, _⟩
      · rw [← hs, h1]; exact ⟨h, rfl⟩
      · rw [← hs, h2]; exact Mem.apart_store xs h
  | delete id =>
    simp only [Mem.step] at hs
    cases hop : m.Delete id with
    | none => rw [hop] at hs; cases hs
    | some rt =>
      rw [hop] at hs
      simp only [Option.map_some', Option.some.injEq] at hs
      rcases Mem.Delete_shape (r := rt.1) (t := rt.2) hop with h1 | ⟨xs, h2, _⟩
      · rw [← hs, h1]; exact ⟨h, rfl⟩
      · rw [← hs, h2]; exact Mem.apart_store xs h
  | get id =>
    simp only [Mem.step] at hs
    cases hop : m.Get id with
    | none => rw [hop] at hs; cases hs
    | some rt =>
      rw [hop] at hs
      simp only [Option.map_some', Option.some.injEq] at hs
      rw [← hs, Mem.Get_shape (r := rt.1) (t := rt.2) hop]
      exact ⟨h, rfl⟩
  | getAll =>
    simp only [Mem.step, Mem.GetAll, Option.map_some', Option.some.injEq] at hs
    rw [← hs]
    exact Mem.apart_alloc _ h

theorem Mem.run_apart {growth : Nat → Nat} {a : Nat} (ops : List Op) :
    ∀ (m t : Mem), m.Apart a → m.run growth ops = some t →
      t.Apart a ∧ t.heap.getD a [] = m.heap.getD a [] := by
  induction ops with
  | nil =>
    intro m t h hrun
    simp only [Mem.run, Option.some.injEq] at hrun
    rw [← hrun]; exact ⟨h, rfl⟩
  | cons op ops ih =>
    intro m t h hrun
    simp only [Mem.run] at hrun
    cases hstep : m.step growth op with
    | none => rw [hstep] at hrun; cases hrun
    | some u =>
      rw [hstep] at hrun
      simp only [Option.some_bind] at hrun
      have h1 := Mem.step_apart op h hstep
      have h2 := ih u t h1.1 hrun
      exact ⟨h2.1, h2.2.trans h1.2⟩

theorem Mem.WF_alloc {m : Mem} (hwf : m.WF) (arr : List Product) :
    Mem.WF { m with heap := m.heap ++ [arr] } ∧
      Mem.contents { m with heap := m.heap ++ [arr] } = m.contents := by
  have harr : Mem.array { m with heap := m.heap ++ [arr] } = m.array := by
    unfold Mem.array
    cases h : m.ptr with
    | none => rfl
    | some a =>
      show List.getD (m.heap ++ [arr]) a [] = m.heap.getD a []
      exact List.getD_append _ _ _ _ (hwf.2 a h)
  refine ⟨⟨?_, ?_⟩, ?_⟩
  · rw [harr]; exact hwf.1
  · intro b hb
    simp only [List.length_append, List.length_singleton]
    exact Nat.lt_succ_of_lt (hwf.2 b hb)
  · simp only [Mem.contents, harr]

/-- A call keeps the header of `s.products` well formed. -/
theorem Mem.step_WF {m t : Mem} {growth : Nat → Nat} (op : Op) (hwf : m.WF)
    (hs : m.step growth op = some t) : t.WF := by
  have hlen := Mem.length_contents m hwf
  cases op with
  | add val =>
    simp only [Mem.step] at hs
    cases hop : m.Add growth val with
    | none => rw [hop] at hs; cases hs
    | some rt =>
      rw [hop] at hs
      simp only [Option.map_some', Option.some.injEq] at hs
      rcases Mem.Add_shape (r := rt.1) (t := rt.2) hop with h1 | ⟨zs, h2, h3⟩
      · rw [← hs, h1]; exact hwf
      · rw [← hs, h2]
        have happ := Mem.append_spec m hwf growth Product.zero
        refine Mem.WF_store _ happ.1 zs ?_
        rw [h3, Mem.length_contents _ happ.1]
        exact happ.1.1
  | update val =>
    simp only [Mem.step] at hs
    cases hop : m.Update val with
    | none => rw [hop] at hs; cases hs
    | some rt =>
      rw [hop] at hs
      simp only [Option.map_some', Option.some.injEq] at hs
      rcases Mem.Update_shape (r := rt.1) (t := rt.2) hop with h1 | ⟨xs, h2, h3⟩
      · rw [← hs, h1]; exact hwf
      · rw [← hs, h2]
        exact Mem.WF_store _ hwf xs (by rw [h3, hlen]; exact hwf.1)
  | delete id =>
    simp only [Mem.step] at hs
    cases hop : m.Delete id with
    | none => rw [hop] at hs; cases hs
    | some rt =>
      rw [hop] at hs
      simp only [Option.map_some', Option.some.injEq] at hs
      rcases Mem.Delete_shape (r := rt.1) (t := rt.2) hop with h1 | ⟨xs, h2, h3⟩
      · rw [← hs, h1]; exact hwf
      · rw [← hs, h2]
        exact Mem.WF_store _ hwf xs (by rw [hlen] at h3; exact le_trans h3 hwf.1)
  | get id =>
    simp only [Mem.step] at hs
    cases hop : m.Get id with
    | none => rw [hop] at hs; cases hs
    | some rt =>
      rw [hop] at hs
      simp only [Option.map_some', Option.some.injEq] at hs
      rw [← hs, Mem.Get_shape (r := rt.1) (t := rt.2) hop]
      exact hwf
  | getAll =>
    simp only [Mem.step, Mem.GetAll, Option.map_some', Option.some.injEq] at hs
    rw [← hs]
    exact (Mem.WF_alloc hwf _).1

theorem Mem.New_WF : Mem.New.WF :=
  ⟨Nat.le_refl 0, fun _ h => by cases h⟩

theorem Mem.run_WF {growth : Nat → Nat} (ops : List Op) :
    ∀ (m t : Mem), m.WF → m.run growth ops = some t → t.WF := by
  induction ops with
  | nil =>
    intro m t h hrun
    simp only [Mem.run, Option.some.injEq] at hrun
    rw [← hrun]; exact h
  | cons op ops ih =>
    intro m t h hrun
    simp only [Mem.run] at hrun
    cases hstep : m.step growth op with
    | none => rw [hstep] at hrun; cases hrun
    | some u =>
      rw [hstep] at hrun
      simp only [Option.some_bind] at hrun
      exact ih u t (Mem.step_WF op h hstep) hrun

theorem Mem.reachable_WF {growth : Nat → Nat} {m : Mem} (hr : Mem.Reachable growth m) :
    m.WF := by
  obtain ⟨ops, hops⟩ := hr
  exact Mem.run_WF ops Mem.New m Mem.New_WF hops

theorem Mem.map_store_setIndex {m : Mem} (hwf : m.WF) (i : Nat) (v : Product) :
    (((setIndex m.contents i v).map
        (fun xs => ((none : Option Error), m.store xs))).map Prod.snd).map Mem.contents
      = (((setIndex m.contents i v).map
        (fun xs => ((none : Option Error), Service.mk xs))).map Prod.snd).map
          Service.products := by
  cases hs : setIndex m.contents i v with
  | none => rfl
  | some xs =>
    simp only [Option.map_some', Option.some.injEq]
    refine Mem.contents_store m hwf xs ?_
    rw [length_setIndex hs, Mem.length_contents m hwf]
    exact hwf.1

/-- The elements of `s.products` in memory change under a call exactly as the
record list of the store does. -/
theorem Mem.step_refines {m : Mem} (growth : Nat → Nat) (hwf : m.WF) (op : Op) :
    (m.step growth op).map Mem.contents
      = ((Service.mk m.contents).step op).map Service.products := by
  have hlen := Mem.length_contents m hwf
  cases op with
  | add val =>
    have happ := Mem.append_spec m hwf growth Product.zero
    simp only [Mem.step, Service.step, Mem.Add, Service.Add]
    cases hfi : (Service.mk m.contents).findIndex val.ID with
    | none => rfl
    | some r =>
      obtain ⟨i, b⟩ := r
      cases b with
      | true => rfl
      | false =>
        simp only [happ.2]
        by_cases hle : i + 1 ≤ (m.contents ++ [Product.zero]).length
        · simp only [if_pos hle]
          cases hs : setIndex (List.take (i + 1) (m.contents ++ [Product.zero])
              ++ copySlice (List.drop (i + 1) (m.contents ++ [Product.zero]))
                (List.drop i (m.contents ++ [Product.zero]))) i val with
          | none => rfl
          | some zs =>
            simp only [Option.map_some', Option.some.injEq]
            refine Mem.contents_store _ happ.1 zs ?_
            have h1 := length_setIndex hs
            have h2 := Mem.length_contents _ happ.1
            have h3 := happ.1.1
            rw [happ.2] at h2
            simp only [List.length_append, List.length_take, length_copySlice,
              List.length_drop] at h1 h2 hle
            omega
        · simp only [if_neg hle]
          rfl
  | update val =>
    simp only [Mem.step, Service.step, Mem.Update, Service.Update]
    cases hfi : (Service.mk m.contents).findIndex val.ID with
    | none => rfl
    | some r =>
      obtain ⟨i, b⟩ := r
      cases b with
      | false => rfl
      | true =>
        simp only []
        cases hget : m.contents[i]? with
        | none => rfl
        | some newVal =>
          simp only []
          split
          · exact Mem.map_store_setIndex hwf _ _
          · split
            · exact Mem.map_store_setIndex hwf _ _
            · split
              · exact Mem.map_store_setIndex hwf _ _
              · rfl
  | delete id =>
    simp only [Mem.step, Service.step, Mem.Delete, Service.Delete]
    cases hfi : (Service.mk m.contents).findIndex id with
    | none => rfl
    | some r =>
      obtain ⟨i, b⟩ := r
      cases b with
      | false => rfl
      | true =>
        simp only []
        by_cases hle : i + 1 ≤ m.contents.length
        · simp only [if_pos hle, Option.map_some', Option.some.injEq]
          refine Mem.contents_store m hwf _ ?_
          have := hwf.1
          simp only [List.length_append, List.length_take, List.length_drop]
          omega
        · simp only [if_neg hle]
          rfl
  | get id =>
    simp only [Mem.step, Service.step, Mem.Get, Service.Get]
    cases hfi : (Service.mk m.contents).findIndex id with
    | none => rfl
    | some r =>
      obtain ⟨i, b⟩ := r
      cases b with
      | false => rfl
      | true =>
        simp only []
        cases hget : m.contents[i]? with
        | none => rfl
        | some p => rfl
  | getAll =>
    simp only [Mem.step, Service.step, Mem.GetAll, Service.GetAll, Option.map_some',
      Option.some.injEq]
    exact (Mem.WF_alloc hwf _).2

theorem Mem.run_refines (growth : Nat → Nat) (ops : List Op) :
    ∀ (m : Mem), m.WF →
      (m.run growth ops).map Mem.contents
        = ((Service.mk m.contents).run ops).map Service.products := by
  induction ops with
  | nil => intro m _; rfl
  | cons op ops ih =>
    intro m hwf
    have hstep := Mem.step_refines growth hwf op
    simp only [Mem.run, Service.run]
    cases hm : m.step growth op with
    | none =>
      rw [hm] at hstep
      cases hs : (Service.mk m.contents).step op with
      | none => rfl
      | some u => rw [hs] at hstep; cases hstep
    | some t =>
      rw [hm] at hstep
      cases hs : (Service.mk m.contents).step op with
      | none => rw [hs] at hstep; cases hstep
      | some u =>
        rw [hs] at hstep
        simp only [Option.map_some', Option.some.injEq] at hstep
        simp only [Option.some_bind]
        rw [ih t (Mem.step_WF op hwf hm), hstep]

/-- The elements of `s.products` in a reachable memory form a reachable store. -/
theorem Mem.reachable_contents {growth : Nat → Nat} {m : Mem}
    (hr : Mem.Reachable growth m) : InMemory2.Reachable ⟨m.contents⟩ := by
  obtain ⟨ops, hops⟩ := hr
  have h := Mem.run_refines growth ops Mem.New Mem.New_WF
  rw [hops] at h
  refine ⟨ops, ?_⟩
  cases hs : InMemory2.New.run ops with
  | none =>
    have h2 : (Service.mk Mem.New.contents).run ops = none := hs
    rw [h2] at h; cases h
  | some u =>
    have h2 : (Service.mk Mem.New.contents).run ops = some u := hs
    rw [h2] at h
    simp only [Option.map_some', Option.some.injEq] at h
    rw [h]

/-- On a memory whose `s.products` is sorted, every sequence of calls returns
normally. -/
theorem Mem.run_total (growth : Nat → Nat) (ops : List Op) (m : Mem) (hwf : m.WF)
    (hs : SortedByID m.contents) : ∃ t, m.run growth ops = some t := by
  have h := Mem.run_refines growth ops m hwf
  obtain ⟨u, hu, _⟩ := run_sorted ops ⟨m.contents⟩ hs
  rw [hu] at h
  cases hm : m.run growth ops with
  | none => rw [hm] at h; cases h
  | some t => exact ⟨t, rfl⟩

/-- `Get` on the memory returns what `Get` on the record list returns, and keeps
the memory. -/
theorem Mem.Get_eq (m : Mem) (id : String) :
    m.Get id = ((Service.mk m.contents).Get id).map (fun r => (r.1, m)) := by
  simp only [Mem.Get, Service.Get]
  cases hfi : (Service.mk m.contents).findIndex id with
  | none => rfl
  | some r =>
    obtain ⟨i, b⟩ := r
    cases b with
    | false => rfl
    | true =>
      simp only []
      cases hget : m.contents[i]? with
      | none => rfl
      | some p => rfl

theorem Mem.Add_of_fresh {m : Mem} (growth : Nat → Nat) {val : Product} {i : Nat}
    (h : (Service.mk m.contents).findIndex val.ID = some (i, false)) :
    m.Add growth val =
      if i + 1 ≤ (m.append growth Product.zero).contents.length then
        match setIndex
          (List.take (i + 1) (m.append growth Product.zero).contents
            ++ copySlice (List.drop (i + 1) (m.append growth Product.zero).contents)
              (List.drop i (m.append growth Product.zero).contents)) i val with
        | none => none
        | some zs => some ((val.ID, none), (m.append growth Product.zero).store zs)
      else none := by
  simp only [Mem.Add, h]

theorem sampleMem_reachable : Mem.Reachable (fun n => n) sampleMem := by
  have hn : ¬ HasID (Service.mk [banana]).products apple.ID := by
    simp [HasID, apple, banana]
  have hlb : lowerBound [banana] apple.ID = 0 := by
    have : ¬ (banana.ID < apple.ID) := not_lt_of_gt apple_lt_banana
    simp only [lowerBound, List.countP_cons, List.countP_nil, decide_eq_false this]
    rfl
  obtain ⟨found, hf, hiff⟩ := findIndex_sorted ⟨[banana]⟩ apple.ID (singleton_sorted banana)
  have hfalse : found = false := by
    cases found with
    | false => rfl
    | true => exact absurd (hiff.mp rfl) hn
  rw [hfalse] at hf
  have hf2 : (Service.mk [banana]).findIndex apple.ID = some (0, false) := by
    rw [← hlb]; exact hf
  have hfi : (Service.mk (Mem.contents ⟨[[banana, Product.zero]], some 0, 1⟩)).findIndex apple.ID
      = some (0, false) := hf2
  have h2 : Mem.Add ⟨[[banana, Product.zero]], some 0, 1⟩ (fun n => n) apple
      = some ((apple.ID, none), sampleMem) := by
    rw [Mem.Add_of_fresh (fun n => n) hfi]
    rfl
  refine ⟨[Op.add banana, Op.add apple], ?_⟩
  have h1 : Mem.New.step (fun n => n) (Op.add banana)
      = some ⟨[[banana, Product.zero]], some 0, 1⟩ := rfl
  show (Mem.New.step (fun n => n) (Op.add banana)).bind
    (fun t => t.run (fun n => n) [Op.add apple]) = some sampleMem
  rw [h1]
  simp only [Option.some_bind, Mem.run, Mem.step, h2, Option.map_some']

/-! ## The claims, continued -/

/-- Claim C11: in a reachable store, `Delete` of an id that occurs succeeds;
on the store it leaves, `Get` of that id fails with `sql.ErrNoRows` and a
second `Delete` of it fails with `ErrorNoRowsDeleted`. -/
theorem Delete_then_Get_and_Delete_fail (s : Service) (hr : Reachable s) (id : String)
    (hh : HasID s.products id) :
    ∃ t : Service, s.Delete id = some (none, t) ∧
      t.Get id = some ((⟨"", "", 0, 0⟩, some Error.ErrNoRows), t) ∧
      t.Delete id = some (some Error.ErrorNoRowsDeleted, t) := by
  have hs := reachable_sorted hr
  have hts : SortedByID (s.products.take (lowerBound s.products id)
      ++ s.products.drop (lowerBound s.products id + 1)) := sorted_remove hs _
  have hn := not_hasID_remove hs id hh
  exact ⟨_, Delete_present s id hs hh, Get_absent ⟨_⟩ id hts hn, Delete_absent ⟨_⟩ id hts hn⟩

theorem Delete_then_Get_and_Delete_fail_witness :
    Reachable sampleStore ∧ HasID sampleStore.products "a1" ∧
    ∃ t : Service, sampleStore.Delete "a1" = some (none, t) ∧
      t.Get "a1" = some ((⟨"", "", 0, 0⟩, some Error.ErrNoRows), t) ∧
      t.Delete "a1" = some (some Error.ErrorNoRowsDeleted, t) :=
  ⟨sampleStore_reachable, sampleStore_has_apple,
    Delete_then_Get_and_Delete_fail sampleStore sampleStore_reachable "a1"
      sampleStore_has_apple⟩

/-- Claim C12: in a reachable store, when the id generated for an `Add` already
occurs, `Add` returns the empty string and the error whose message is
"product already exists", and the record sequence is left as it was. -/
theorem Add_existing_id_rejected (s : Service) (hr : Reachable s) (val : Product)
    (hh : HasID s.products val.ID) :
    s.Add val = some (("", some Error.productAlreadyExists), s) ∧
    Error.productAlreadyExists.message = "product already exists" :=
  ⟨Add_collision s val (reachable_sorted hr) hh, rfl⟩

theorem Add_existing_id_rejected_witness :
    Reachable sampleStore ∧
    HasID sampleStore.products (⟨"a1", "Kiwi", 0x4004000000000000, 1700000009⟩ : Product).ID ∧
    sampleStore.Add ⟨"a1", "Kiwi", 0x4004000000000000, 1700000009⟩
      = some (("", some Error.productAlreadyExists), sampleStore) ∧
    Error.productAlreadyExists.message = "product already exists" :=
  ⟨sampleStore_reachable, sampleStore_has_apple,
    Add_existing_id_rejected sampleStore sampleStore_reachable
      ⟨"a1", "Kiwi", 0x4004000000000000, 1700000009⟩ sampleStore_has_apple⟩

/-- Claim C13: every sequence of `Add` calls on the empty store, whatever the
generated ids, returns normally; the ids returned by the calls that succeed
are pairwise distinct, and `GetAll` afterwards returns exactly as many records
as there were successful calls. -/
theorem addAll_distinct_ids_and_count (vals : List Product) :
    ∃ (rs : List (String × Option Error)) (s : Service) (out : List Product),
      New.addAll vals = some (rs, s) ∧ rs.length = vals.length ∧
      (returnedIDs rs).Nodup ∧
      s.GetAll = some ((out, none), s) ∧ out.length = (returnedIDs rs).length := by
  obtain ⟨rs, t, hrun, _, hlen, hcount, hnd, _⟩ := addAll_sorted vals New New_sorted
  refine ⟨rs, t, t.products, hrun, hlen, hnd, GetAll_eq t, ?_⟩
  rw [hcount]
  simp only [New, List.length_nil, Nat.zero_add]

/-- Claim C14: in a reachable store, a record with id `X` is still present,
with the same id and the same `created_at`, after any single call other than
`Delete(X)`: any `Add`, any `Update` (also of `X`), a `Delete` of another id,
`Get` and `GetAll`. -/
theorem record_kept_by_other_calls (s : Service) (hr : Reachable s) (p : Product)
    (hp : p ∈ s.products) (op : Op) (hop : op ≠ Op.delete p.ID) :
    ∃ t : Service, s.step op = some t ∧
      ∃ q ∈ t.products, q.ID = p.ID ∧ q.CreatedAt = p.CreatedAt := by
  have hs := reachable_sorted hr
  cases op with
  | add val =>
    by_cases hh : HasID s.products val.ID
    · exact ⟨s, by simp only [Service.step, Add_collision s val hs hh, Option.map_some'],
        p, hp, rfl, rfl⟩
    · exact ⟨⟨s.products.take (lowerBound s.products val.ID)
          ++ val :: s.products.drop (lowerBound s.products val.ID)⟩,
        by simp only [Service.step, Add_fresh s val hs hh, Option.map_some'],
        p, mem_insert_of_mem _ _ hp, rfl, rfl⟩
  | update val =>
    by_cases hh : HasID s.products val.ID
    · obtain ⟨hi, he, hu⟩ := Update_present s val hs hh
      by_cases hparams : val.Name = "" ∧ f64IsZero val.Price = true
      · rw [if_pos hparams] at hu
        exact ⟨s, by simp only [Service.step, hu, Option.map_some'], p, hp, rfl, rfl⟩
      · rw [if_neg hparams] at hu
        refine ⟨⟨s.products.set (lowerBound s.products val.ID)
            (updatedRecord s.products[lowerBound s.products val.ID] val)⟩,
          by simp only [Service.step, hu, Option.map_some'], ?_⟩
        rcases mem_set_or (lowerBound s.products val.ID) hi
            (updatedRecord s.products[lowerBound s.products val.ID] val) hp with h1 | h2
        · exact ⟨p, h1, rfl, rfl⟩
        · exact ⟨_, mem_set_self _ hi _, by rw [h2]; rfl, by rw [h2]; rfl⟩
    · exact ⟨s, by simp only [Service.step, Update_absent s val hs hh, Option.map_some'],
        p, hp, rfl, rfl⟩
  | delete id =>
    have hid : id ≠ p.ID := fun h => hop (by rw [h])
    by_cases hh : HasID s.products id
    · obtain ⟨hi, he⟩ := (hasID_iff_at_lowerBound hs id).mp hh
      have hne : p ≠ s.products[lowerBound s.products id] := by
        intro hc
        exact hid (by rw [hc]; exact he.symm)
      exact ⟨⟨s.products.take (lowerBound s.products id)
          ++ s.products.drop (lowerBound s.products id + 1)⟩,
        by simp only [Service.step, Delete_present s id hs hh, Option.map_some'],
        p, mem_remove_of_ne _ hi hp hne, rfl, rfl⟩
    · exact ⟨s, by simp only [Service.step, Delete_absent s id hs hh, Option.map_some'],
        p, hp, rfl, rfl⟩
  | get id =>
    by_cases hh : HasID s.products id
    · obtain ⟨_, _, hg⟩ := Get_present s id hs hh
      exact ⟨s, by simp only [Service.step, hg, Option.map_some'], p, hp, rfl, rfl⟩
    · exact ⟨s, by simp only [Service.step, Get_absent s id hs hh, Option.map_some'],
        p, hp, rfl, rfl⟩
  | getAll =>
    exact ⟨s, by simp only [Service.step, GetAll_eq, Option.map_some'], p, hp, rfl, rfl⟩

theorem record_kept_by_other_calls_witness :
    Reachable sampleStore ∧ apple ∈ sampleStore.products ∧
    Op.update ⟨"a1", "Pear", 0x4023FAE147AE147B, 7⟩ ≠ Op.delete apple.ID ∧
    ∃ t : Service,
      sampleStore.step (Op.update ⟨"a1", "Pear", 0x4023FAE147AE147B, 7⟩) = some t ∧
      ∃ q ∈ t.products, q.ID = apple.ID ∧ q.CreatedAt = apple.CreatedAt :=
  ⟨sampleStore_reachable, List.mem_cons_self _ _, (fun h => by cases h),
    record_kept_by_other_calls sampleStore sampleStore_reachable apple
      (List.mem_cons_self _ _) (Op.update ⟨"a1", "Pear", 0x4023FAE147AE147B, 7⟩)
      (fun h => by cases h)⟩

/-- Claim C15: `GetAll` on a store holding no record, be it fresh or emptied by
`Delete` calls, returns no error and a slice that is empty and not nil. -/
theorem GetAll_empty_store_non_nil (s : Service) (h : s.products = []) :
    s.GetAllSlice = (some [], none) ∧ s.GetAll = some (([], none), s) := by
  refine ⟨?_, ?_⟩
  · simp only [Service.GetAllSlice, h, makeSlice, copyTo, copySlice]
    rfl
  · rw [GetAll_eq, h]

theorem GetAll_empty_store_non_nil_witness :
    (Service.mk []).products = [] ∧
    (Service.mk []).GetAllSlice = (some [], none) ∧
    (Service.mk []).GetAll = some (([], none), Service.mk []) :=
  ⟨rfl, GetAll_empty_store_non_nil (Service.mk []) rfl⟩

/-- Claim C16, as stated, fails: when the iterator yields nothing, `GetAll` of
the memdb-backed store returns the nil slice, where `GetAll` of `in_memory2`
on the empty store returns a non-nil one. -/
theorem memdb_GetAll_empty_counterexample :
    (InMemory.GetAll (Except.ok [] : Except String (List Product))).1 = none ∧
    (InMemory.GetAll (Except.ok [] : Except String (List Product))).1 ≠ some [] ∧
    New.GetAllSlice.1 = some [] := by
  refine ⟨rfl, ?_, rfl⟩
  intro hc
  cases hc

/-- Claim C16, amended: when the iterator yields nothing, `GetAll` of the
memdb-backed store returns no error and the nil slice; it has no elements,
as the slice `GetAll` of `in_memory2` returns on the empty store. -/
theorem memdb_GetAll_empty_is_nil (E : Type) :
    InMemory.GetAll (Except.ok [] : Except E (List Product)) = (none, none) ∧
    (InMemory.GetAll (Except.ok [] : Except E (List Product))).1.elems = [] ∧
    (InMemory.GetAll (Except.ok [] : Except E (List Product))).1.elems
      = New.GetAllSlice.1.elems ∧
    (InMemory.GetAll (Except.ok [] : Except E (List Product))).2 = none ∧
    New.GetAllSlice.2 = none :=
  ⟨rfl, rfl, rfl, rfl, rfl⟩

/-- Claim C17, as stated, fails: after `Add` generated the record `widgetSeed`
with id `p1` and price `1.5`, and `Update(p1, name="Widget")` succeeded,
`Get(p1)` returns the name `Widget` with the generated price `1.5`, not `0`. -/
theorem scenario_price_zero_counterexample :
    New.Add widgetSeed = some (("p1", none), ⟨[widgetSeed]⟩) ∧
    Service.Update ⟨[widgetSeed]⟩ ⟨"p1", "Widget", 0, 0⟩
      = some (none, ⟨[⟨"p1", "Widget", 0x3FF8000000000000, 1700000000⟩]⟩) ∧
    Service.Get ⟨[⟨"p1", "Widget", 0x3FF8000000000000, 1700000000⟩]⟩ "p1"
      = some ((⟨"p1", "Widget", 0x3FF8000000000000, 1700000000⟩, none),
          ⟨[⟨"p1", "Widget", 0x3FF8000000000000, 1700000000⟩]⟩) ∧
    f64IsZero 0x3FF8000000000000 = false :=
  ⟨Add_New widgetSeed,
    Update_singleton widgetSeed ⟨"p1", "Widget", 0, 0⟩ rfl (by decide),
    Get_singleton ⟨"p1", "Widget", 0x3FF8000000000000, 1700000000⟩,
    by decide⟩

/-- Claim C17, amended: on a fresh store, for every record `val` that `Add`
generates, `Add` returns its id `p1`; `Update(p1, name="Widget")` succeeds and
`Get(p1)` then has the name `Widget` and the generated price;
`Update(p1, price=9.99)` succeeds and `Get(p1)` then has the price `9.99` and
still the name `Widget`; `Delete(p1)` succeeds; `Get(p1)` fails with
`sql.ErrNoRows`; `Delete(p1)` again fails with `ErrorNoRowsDeleted`. -/
theorem scenario_on_fresh_store (val : Product) :
    New.Add val = some ((val.ID, none), ⟨[val]⟩) ∧
    Service.Update ⟨[val]⟩ ⟨val.ID, "Widget", 0, 0⟩
      = some (none, ⟨[⟨val.ID, "Widget", val.Price, val.CreatedAt⟩]⟩) ∧
    Service.Get ⟨[⟨val.ID, "Widget", val.Price, val.CreatedAt⟩]⟩ val.ID
      = some ((⟨val.ID, "Widget", val.Price, val.CreatedAt⟩, none),
          ⟨[⟨val.ID, "Widget", val.Price, val.CreatedAt⟩]⟩) ∧
    Service.Update ⟨[⟨val.ID, "Widget", val.Price, val.CreatedAt⟩]⟩
        ⟨val.ID, "", 0x4023FAE147AE147B, 0⟩
      = some (none, ⟨[⟨val.ID, "Widget", 0x4023FAE147AE147B, val.CreatedAt⟩]⟩) ∧
    Service.Get ⟨[⟨val.ID, "Widget", 0x4023FAE147AE147B, val.CreatedAt⟩]⟩ val.ID
      = some ((⟨val.ID, "Widget", 0x4023FAE147AE147B, val.CreatedAt⟩, none),
          ⟨[⟨val.ID, "Widget", 0x4023FAE147AE147B, val.CreatedAt⟩]⟩) ∧
    Service.Delete ⟨[⟨val.ID, "Widget", 0x4023FAE147AE147B, val.CreatedAt⟩]⟩ val.ID
      = some (none, ⟨[]⟩) ∧
    Service.Get ⟨[]⟩ val.ID = some ((⟨"", "", 0, 0⟩, some Error.ErrNoRows), ⟨[]⟩) ∧
    Service.Delete ⟨[]⟩ val.ID = some (some Error.ErrorNoRowsDeleted, ⟨[]⟩) :=
  ⟨Add_New val,
    Update_singleton val ⟨val.ID, "Widget", 0, 0⟩ rfl
      (fun h => absurd h.1 (by decide : ¬ ("Widget" = ""))),
    Get_singleton ⟨val.ID, "Widget", val.Price, val.CreatedAt⟩,
    Update_singleton ⟨val.ID, "Widget", val.Price, val.CreatedAt⟩
      ⟨val.ID, "", 0x4023FAE147AE147B, 0⟩ rfl
      (fun h => absurd h.2 (by decide : ¬ (f64IsZero 0x4023FAE147AE147B = true))),
    Get_singleton ⟨val.ID, "Widget", 0x4023FAE147AE147B, val.CreatedAt⟩,
    Delete_singleton ⟨val.ID, "Widget", 0x4023FAE147AE147B, val.CreatedAt⟩,
    Get_absent ⟨[]⟩ val.ID List.Pairwise.nil (nil_not_hasID val.ID),
    Delete_absent ⟨[]⟩ val.ID List.Pairwise.nil (nil_not_hasID val.ID)⟩

/-- Claim C20: for each of the five operations the returned value, the returned
error and the store afterwards are the same for any two context arguments,
a cancelled or expired one included. -/
theorem context_never_influences (ctx₁ ctx₂ : Context) (s : Service) (val : Product)
    (id : String) :
    s.AddCtx ctx₁ val = s.AddCtx ctx₂ val ∧
    s.UpdateCtx ctx₁ val = s.UpdateCtx ctx₂ val ∧
    s.DeleteCtx ctx₁ id = s.DeleteCtx ctx₂ id ∧
    s.GetCtx ctx₁ id = s.GetCtx ctx₂ id ∧
    s.GetAllCtx ctx₁ = s.GetAllCtx ctx₂ :=
  ⟨rfl, rfl, rfl, rfl, rfl⟩

/-- Claim C18: in a reachable memory `GetAll` returns the header of a newly
allocated array that holds the elements of `s.products`; after every later
sequence of `Add`, `Update` and `Delete` calls (and reads), which all return
normally, the slice read through that header still holds exactly those
elements, also where `Delete` shifted the store's own array in place.  `Get`
returns its record by value and leaves the memory as it is. -/
theorem GetAll_snapshot_is_a_copy (growth : Nat → Nat) (m : Mem)
    (hr : Mem.Reachable growth m) :
    ∃ (out : SliceRef) (m1 : Mem),
      m.GetAll = some ((out, none), m1) ∧ m1.read out = m.contents ∧
      m1.contents = m.contents ∧
      (∀ ops : List Op, ∃ m2 : Mem,
        m1.run growth ops = some m2 ∧ m2.read out = m.contents) ∧
      (∀ id : String, ∃ r : Product × Option Error, m.Get id = some (r, m)) := by
  have hwf := Mem.reachable_WF hr
  have hsorted : SortedByID m.contents := reachable_sorted (Mem.reachable_contents hr)
  have hcopy := copySlice_make Product.zero m.contents
  have halloc := Mem.WF_alloc hwf
    (copySlice (List.replicate m.contents.length Product.zero) m.contents)
  have hread : Mem.read { m with heap := m.heap
        ++ [copySlice (List.replicate m.contents.length Product.zero) m.contents] }
      ⟨m.heap.length, m.contents.length⟩ = m.contents := by
    show (List.getD (m.heap
        ++ [copySlice (List.replicate m.contents.length Product.zero) m.contents])
      m.heap.length []).take m.contents.length = m.contents
    rw [List.getD_append_right _ _ _ _ (le_refl _), Nat.sub_self, hcopy]
    show m.contents.take m.contents.length = m.contents
    exact List.take_length _
  have hapart : Mem.Apart { m with heap := m.heap
        ++ [copySlice (List.replicate m.contents.length Product.zero) m.contents] }
      m.heap.length := by
    refine ⟨?_, ?_, ?_⟩
    · simp only [List.length_append, List.length_singleton]; omega
    · intro hc
      exact Nat.lt_irrefl _ (hwf.2 _ hc)
    · intro b hb
      simp only [List.length_append, List.length_singleton]
      exact Nat.lt_succ_of_lt (hwf.2 b hb)
  refine ⟨⟨m.heap.length, m.contents.length⟩, _, rfl, hread, halloc.2, ?_, ?_⟩
  · intro ops
    obtain ⟨m2, hm2⟩ := Mem.run_total growth ops _ halloc.1 (by rw [halloc.2]; exact hsorted)
    refine ⟨m2, hm2, ?_⟩
    have hkeep := (Mem.run_apart ops _ m2 hapart hm2).2
    have hsame : m2.read ⟨m.heap.length, m.contents.length⟩
        = Mem.read { m with heap := m.heap
            ++ [copySlice (List.replicate m.contents.length Product.zero) m.contents] }
          ⟨m.heap.length, m.contents.length⟩ := by
      unfold Mem.read
      rw [hkeep]
    exact hsame.trans hread
  · intro id
    rw [Mem.Get_eq]
    by_cases hh : HasID (Service.mk m.contents).products id
    · obtain ⟨_, _, hg⟩ := Get_present ⟨m.contents⟩ id hsorted hh
      exact ⟨_, by rw [hg]; rfl⟩
    · exact ⟨_, by rw [Get_absent ⟨m.contents⟩ id hsorted hh]; rfl⟩

theorem GetAll_snapshot_is_a_copy_witness :
    Mem.Reachable (fun n => n) sampleMem ∧
    ∃ (out : SliceRef) (m1 : Mem),
      sampleMem.GetAll = some ((out, none), m1) ∧ m1.read out = sampleMem.contents ∧
      m1.contents = sampleMem.contents ∧
      (∀ ops : List Op, ∃ m2 : Mem,
        m1.run (fun n => n) ops = some m2 ∧ m2.read out = sampleMem.contents) ∧
      (∀ id : String, ∃ r : Product × Option Error, sampleMem.Get id = some (r, sampleMem)) :=
  ⟨sampleMem_reachable, GetAll_snapshot_is_a_copy (fun n => n) sampleMem sampleMem_reachable⟩

/-! ## No operation panics -/

/-- When the predicate returns normally on `[0, n)`, the loop started on an
interval within `[0, n]` with enough iterations returns an index of that
interval. -/
theorem searchLoop_total (f : Nat → Option Bool) (n : Nat)
    (hf : ∀ h, h < n → ∃ b, f h = some b) :
    ∀ (fuel i j : Nat), i ≤ j → j ≤ n → j - i ≤ fuel →
      ∃ r, searchLoop f fuel i j = some r ∧ i ≤ r ∧ r ≤ j := by
  intro fuel
  induction fuel with
  | zero =>
    intro i j hij _ hfu
    refine ⟨i, ?_, le_refl _, hij⟩
    simp only [searchLoop]
    rw [if_neg (by omega)]
  | succ fuel ih =>
    intro i j hij hn hfu
    simp only [searchLoop]
    by_cases hlt : i < j
    · rw [if_pos hlt]
      obtain ⟨b, hb⟩ := hf ((i + j) / 2) (by omega)
      rw [hb]
      cases b with
      | false =>
        obtain ⟨r, hr, h1, h2⟩ := ih ((i + j) / 2 + 1) j (by omega) hn (by omega)
        exact ⟨r, hr, by omega, h2⟩
      | true =>
        obtain ⟨r, hr, h1, h2⟩ := ih i ((i + j) / 2) (by omega) (by omega) (by omega)
        exact ⟨r, hr, h1, by omega⟩
    · rw [if_neg hlt]
      exact ⟨i, rfl, le_refl _, hij⟩

/-- On every record list `findIndex` returns normally, with an index within the
bounds. -/
theorem findIndex_total (s : Service) (id : String) :
    ∃ (i : Nat) (found : Bool), s.findIndex id = some (i, found) ∧
      i ≤ s.products.length ∧ (found = true → i < s.products.length) := by
  have hf : ∀ h, h < s.products.length →
      ∃ b, (fun i => (s.products[i]?).map (fun p => decide (p.ID ≥ id))) h = some b := by
    intro h hh
    simp only [List.getElem?_eq_getElem hh, Option.map_some']
    exact ⟨_, rfl⟩
  obtain ⟨r, hr, _, hle⟩ := searchLoop_total _ s.products.length hf s.products.length 0
    s.products.length (Nat.zero_le _) (le_refl _) (by omega)
  have hsearch : Search s.products.length
      (fun i => (s.products[i]?).map (fun p => decide (p.ID ≥ id))) = some r := hr
  simp only [Service.findIndex, hsearch]
  by_cases hi : r < s.products.length
  · rw [if_pos hi, List.getElem?_eq_getElem hi]
    by_cases he : s.products[r].ID = id
    · exact ⟨r, true, by simp only [he, if_true], hle, fun _ => hi⟩
    · exact ⟨r, false, by simp only [he, if_false], hle, fun hc => by cases hc⟩
  · rw [if_neg hi]
    exact ⟨r, false, rfl, hle, fun hc => by cases hc⟩

theorem Add_total (s : Service) (val : Product) : ∃ r, s.Add val = some r := by
  obtain ⟨i, found, hf, hle, _⟩ := findIndex_total s val.ID
  cases found with
  | true =>
    simp only [Service.Add, hf]
    exact ⟨_, rfl⟩
  | false =>
    simp only [Service.Add, hf, setIndex]
    rw [if_pos (by simp only [List.length_append, List.length_singleton]; omega)]
    rw [if_pos (by
      simp only [List.length_append, List.length_take, length_copySlice, List.length_drop,
        List.length_singleton]
      omega)]
    exact ⟨_, rfl⟩

theorem Update_total (s : Service) (val : Product) : ∃ r, s.Update val = some r := by
  obtain ⟨i, found, hf, _, hlt⟩ := findIndex_total s val.ID
  cases found with
  | false =>
    simp only [Service.Update, hf]
    exact ⟨_, rfl⟩
  | true =>
    have hi := hlt rfl
    simp only [Service.Update, hf, List.getElem?_eq_getElem hi, setIndex, if_pos hi,
      Option.map_some']
    split
    · exact ⟨_, rfl⟩
    · split
      · exact ⟨_, rfl⟩
      · split
        · exact ⟨_, rfl⟩
        · exact ⟨_, rfl⟩

theorem Delete_total (s : Service) (id : String) : ∃ r, s.Delete id = some r := by
  obtain ⟨i, found, hf, _, hlt⟩ := findIndex_total s id
  cases found with
  | false =>
    simp only [Service.Delete, hf]
    exact ⟨_, rfl⟩
  | true =>
    have hi := hlt rfl
    simp only [Service.Delete, hf]
    rw [if_pos (by omega)]
    exact ⟨_, rfl⟩

theorem Get_total (s : Service) (id : String) : ∃ r, s.Get id = some r := by
  obtain ⟨i, found, hf, _, hlt⟩ := findIndex_total s id
  cases found with
  | false =>
    simp only [Service.Get, hf]
    exact ⟨_, rfl⟩
  | true =>
    have hi := hlt rfl
    simp only [Service.Get, hf, List.getElem?_eq_getElem hi]
    exact ⟨_, rfl⟩

/-! ## Insertion and removal at the lower bound -/

theorem findIndex_fresh (s : Service) (id : String) (h : SortedByID s.products)
    (hn : ¬ HasID s.products id) :
    s.findIndex id = some (lowerBound s.products id, false) := by
  obtain ⟨found, hf, hiff⟩ := findIndex_sorted s id h
  cases found with
  | false => exact hf
  | true => exact absurd (hiff.mp rfl) hn

/-- The lower bound of the id of a record that was inserted at its lower bound
is the same position. -/
theorem lowerBound_insert {xs : List Product} (h : SortedByID xs) (val : Product) :
    lowerBound (xs.take (lowerBound xs val.ID) ++ val :: xs.drop (lowerBound xs val.ID)) val.ID
      = lowerBound xs val.ID := by
  have h1 : List.countP (fun p => decide (p.ID < val.ID)) (xs.take (lowerBound xs val.ID))
      = (xs.take (lowerBound xs val.ID)).length :=
    List.countP_eq_length.mpr (fun p hp => by
      simp only [decide_eq_true_eq]; exact mem_take_lowerBound h val.ID hp)
  have h2 : List.countP (fun p => decide (p.ID < val.ID)) (xs.drop (lowerBound xs val.ID)) = 0 :=
    List.countP_eq_zero.mpr (fun p hp => by
      simp only [decide_eq_true_eq]; exact not_lt.mpr (mem_drop_lowerBound h val.ID hp))
  have h3 : (xs.take (lowerBound xs val.ID)).length = lowerBound xs val.ID := by
    simp only [List.length_take]
    exact Nat.min_eq_left (lowerBound_le_length xs val.ID)
  show List.countP _ _ = _
  rw [List.countP_append, List.countP_cons, h1, h2, h3,
    decide_eq_false (lt_irrefl val.ID)]
  rfl

theorem remove_insert {α : Type} (xs : List α) (i : Nat) (hi : i ≤ xs.length) (v : α) :
    (xs.take i ++ v :: xs.drop i).take i ++ (xs.take i ++ v :: xs.drop i).drop (i + 1) = xs := by
  have hlen : (xs.take i).length = i := by
    simp only [List.length_take]; exact Nat.min_eq_left hi
  have h1 : (xs.take i ++ v :: xs.drop i).take i = xs.take i := List.take_left' hlen
  have h2 : (xs.take i ++ v :: xs.drop i).drop (i + 1) = xs.drop i := by
    have : xs.take i ++ v :: xs.drop i = (xs.take i ++ [v]) ++ xs.drop i := by
      simp only [List.append_assoc, List.singleton_append]
    rw [this]
    exact List.drop_left' (by simp only [List.length_append, List.length_singleton, hlen])
  rw [h1, h2, List.take_append_drop]

/-! ## `model.ParseProduct` -/

theorem ParseProduct_empty_id (parseFloat : String → Option Nat) (name priceStr : String) :
    Model.ParseProduct parseFloat "" name priceStr
      = (Product.zero, some (GoError.fresh "invalid id")) := by
  simp only [Model.ParseProduct, if_true]

/-- With a non-empty id `ParseProduct` fails exactly when the name is empty and
the price is zero or did not parse; otherwise it returns the id, the name and
the parsed price, or the price `0` when the string did not parse. -/
theorem ParseProduct_cases (parseFloat : String → Option Nat) (id name priceStr : String)
    (hid : id ≠ "") :
    Model.ParseProduct parseFloat id name priceStr =
      if name = "" ∧ f64IsZero ((parseFloat priceStr).getD 0) = true then
        (Product.zero, some (GoError.ofError Error.ErrorNoUpdateParams))
      else (⟨id, name, (parseFloat priceStr).getD 0, 0⟩, none) := by
  simp only [Model.ParseProduct, if_neg hid]
  cases parseFloat priceStr with
  | none =>
    by_cases hn : name = ""
    · simp [hn, f64IsZero]
    · simp [hn]
  | some z =>
    by_cases hn : name = ""
    · simp [hn]
    · simp [hn]

theorem ParseProduct_ok_params (parseFloat : String → Option Nat) (id name priceStr : String)
    (prod : Product) (h : Model.ParseProduct parseFloat id name priceStr = (prod, none)) :
    id ≠ "" ∧ ¬ (prod.Name = "" ∧ f64IsZero prod.Price = true) ∧ prod.ID = id := by
  by_cases hid : id = ""
  · rw [hid, ParseProduct_empty_id] at h
    simp only [Prod.mk.injEq] at h
    exact absurd h.2 (by simp)
  · rw [ParseProduct_cases parseFloat id name priceStr hid] at h
    split at h
    · simp only [Prod.mk.injEq] at h
      exact absurd h.2 (by simp)
    · next hc =>
      simp only [Prod.mk.injEq, and_true] at h
      rw [← h]
      exact ⟨hid, hc, rfl⟩

/-! ## The claims, third part -/

/-- Claim C21: for a non-empty id, `ParseProduct` fails with
`ErrorNoUpdateParams` and the zero `Product` whenever the name is empty and the
price string does not parse (the missing, empty string, which `ParseFloat`
rejects, included) or parses to zero; in every other case it succeeds with the
id, the given name and the parsed price, which is `0` when the string does not
parse. -/
theorem ParseProduct_outcome (parseFloat : String → Option Nat) (id name priceStr : String)
    (hid : id ≠ "") :
    ((name = "" ∧ (parseFloat priceStr = none ∨
          ∃ z, parseFloat priceStr = some z ∧ f64IsZero z = true)) →
      Model.ParseProduct parseFloat id name priceStr
        = (⟨"", "", 0, 0⟩, some (GoError.ofError Error.ErrorNoUpdateParams))) ∧
    (¬ (name = "" ∧ (parseFloat priceStr = none ∨
          ∃ z, parseFloat priceStr = some z ∧ f64IsZero z = true)) →
      Model.ParseProduct parseFloat id name priceStr
        = (⟨id, name, (parseFloat priceStr).getD 0, 0⟩, none)) ∧
    (parseFloat "" = none →
      Model.ParseProduct parseFloat id "" ""
        = (⟨"", "", 0, 0⟩, some (GoError.ofError Error.ErrorNoUpdateParams))) := by
  have hcases := ParseProduct_cases parseFloat id name priceStr hid
  have hzero : (name = "" ∧ (parseFloat priceStr = none ∨
        ∃ z, parseFloat priceStr = some z ∧ f64IsZero z = true)) ↔
      (name = "" ∧ f64IsZero ((parseFloat priceStr).getD 0) = true) := by
    cases hp : parseFloat priceStr with
    | none => simp [f64IsZero]
    | some z => simp
  refine ⟨?_, ?_, ?_⟩
  · intro h
    rw [hcases, if_pos (hzero.mp h)]
    rfl
  · intro h
    rw [hcases, if_neg (fun hc => h (hzero.mpr hc))]
  · intro h
    rw [ParseProduct_cases parseFloat id "" "" hid, h]
    rfl

theorem ParseProduct_outcome_witness :
    "a1" ≠ "" ∧
    ((("" = "" ∧ (sampleParseFloat "-0" = none ∨
          ∃ z, sampleParseFloat "-0" = some z ∧ f64IsZero z = true)) →
      Model.ParseProduct sampleParseFloat "a1" "" "-0"
        = (⟨"", "", 0, 0⟩, some (GoError.ofError Error.ErrorNoUpdateParams))) ∧
    (¬ ("" = "" ∧ (sampleParseFloat "-0" = none ∨
          ∃ z, sampleParseFloat "-0" = some z ∧ f64IsZero z = true)) →
      Model.ParseProduct sampleParseFloat "a1" "" "-0"
        = (⟨"a1", "", (sampleParseFloat "-0").getD 0, 0⟩, none)) ∧
    (sampleParseFloat "" = none →
      Model.ParseProduct sampleParseFloat "a1" "" ""
        = (⟨"", "", 0, 0⟩, some (GoError.ofError Error.ErrorNoUpdateParams)))) :=
  ⟨by decide, ParseProduct_outcome sampleParseFloat "a1" "" "-0" (by decide)⟩

/-- Claim C25: in a reachable store, a successful `Add` of the generated record
`r` leaves `old[0..i) ++ [r] ++ old[i..)`, where `i` is the position
`findIndex` returns for the id of `r`, its lower bound: one record is
inserted, the count grows by one, and the old records keep their order. -/
theorem Add_inserts_at_lower_bound (s : Service) (hr : Reachable s) (r : Product)
    (X : String) (t : Service) (hadd : s.Add r = some ((X, none), t)) :
    ∃ i : Nat, s.findIndex r.ID = some (i, false) ∧ i = lowerBound s.products r.ID ∧
      i ≤ s.products.length ∧
      t.products = s.products.take i ++ [r] ++ s.products.drop i ∧
      t.products.length = s.products.length + 1 ∧
      s.products.Sublist t.products := by
  have hs := reachable_sorted hr
  by_cases hh : HasID s.products r.ID
  · rw [Add_collision s r hs hh] at hadd
    cases hadd
  · rw [Add_fresh s r hs hh] at hadd
    simp only [Option.some.injEq, Prod.mk.injEq, and_true] at hadd
    obtain ⟨_, ht⟩ := hadd
    refine ⟨lowerBound s.products r.ID, findIndex_fresh s r.ID hs hh, rfl,
      lowerBound_le_length _ _, ?_, ?_, ?_⟩
    · rw [← ht]; simp only [List.append_assoc, List.singleton_append]
    · rw [← ht]; exact length_insert _ _ _
    · rw [← ht]
      have hsub : (s.products.take (lowerBound s.products r.ID)
          ++ s.products.drop (lowerBound s.products r.ID)).Sublist
          (s.products.take (lowerBound s.products r.ID)
            ++ r :: s.products.drop (lowerBound s.products r.ID)) :=
        List.Sublist.append (List.Sublist.refl _) (List.sublist_cons_self _ _)
      rw [List.take_append_drop] at hsub
      exact hsub

theorem Add_inserts_at_lower_bound_witness :
    Reachable sampleStore ∧
    sampleStore.Add cherry = some (("c3", none), ⟨[apple, banana, cherry]⟩) ∧
    ∃ i : Nat, sampleStore.findIndex cherry.ID = some (i, false) ∧
      i = lowerBound sampleStore.products cherry.ID ∧
      i ≤ sampleStore.products.length ∧
      [apple, banana, cherry] = sampleStore.products.take i ++ [cherry]
        ++ sampleStore.products.drop i ∧
      [apple, banana, cherry].length = sampleStore.products.length + 1 ∧
      sampleStore.products.Sublist [apple, banana, cherry] :=
  ⟨sampleStore_reachable, sampleStore_Add_cherry,
    Add_inserts_at_lower_bound sampleStore sampleStore_reachable cherry "c3"
      ⟨[apple, banana, cherry]⟩ sampleStore_Add_cherry⟩

/-- Claim C26: in a reachable store, `Delete` of the id at position `i` succeeds
and leaves `old[0..i) ++ old[i+1..)`: the count shrinks by one, and the
remaining records keep their values and their ascending order. -/
theorem Delete_removes_position (s : Service) (hr : Reachable s) (id : String) (i : Nat)
    (hi : i < s.products.length) (hid : s.products[i].ID = id) :
    s.Delete id = some (none, ⟨s.products.take i ++ s.products.drop (i + 1)⟩) ∧
    (s.products.take i ++ s.products.drop (i + 1)).length + 1 = s.products.length ∧
    (s.products.take i ++ s.products.drop (i + 1)).Sublist s.products ∧
    SortedByID (s.products.take i ++ s.products.drop (i + 1)) := by
  have hs := reachable_sorted hr
  have hh : HasID s.products id := ⟨_, List.getElem_mem hi, hid⟩
  obtain ⟨hlb, he⟩ := (hasID_iff_at_lowerBound hs id).mp hh
  have hpos : lowerBound s.products id = i :=
    index_eq_of_ID_eq hs hlb hi (he.trans hid.symm)
  have hdel := Delete_present s id hs hh
  rw [hpos] at hdel
  refine ⟨hdel, ?_, ?_, sorted_remove hs i⟩
  · simp only [List.length_append, List.length_take, List.length_drop]
    omega
  · have hsub : (s.products.take i ++ s.products.drop (i + 1)).Sublist
        (s.products.take i ++ s.products.drop i) :=
      List.Sublist.append_left (List.drop_sublist_drop_left s.products (Nat.le_succ i)) _
    rw [List.take_append_drop] at hsub
    exact hsub

theorem Delete_removes_position_witness :
    Reachable sampleStore ∧ ∃ hi : 1 < sampleStore.products.length,
    sampleStore.products[1].ID = "b2" ∧
    (sampleStore.Delete "b2"
      = some (none, ⟨sampleStore.products.take 1 ++ sampleStore.products.drop (1 + 1)⟩) ∧
    (sampleStore.products.take 1 ++ sampleStore.products.drop (1 + 1)).length + 1
      = sampleStore.products.length ∧
    (sampleStore.products.take 1 ++ sampleStore.products.drop (1 + 1)).Sublist
      sampleStore.products ∧
    SortedByID (sampleStore.products.take 1 ++ sampleStore.products.drop (1 + 1))) :=
  ⟨sampleStore_reachable, by decide, rfl,
    Delete_removes_position sampleStore sampleStore_reachable "b2" 1 (by decide) rfl⟩

/-- Claim C28: on every record list, sorted or not, `findIndex` returns an index
`i` with `i ≤ length`, and `found` only with `i < length`; so every index and
slice bound of the five operations is in range and each of them returns
normally, for every input. -/
theorem operations_never_panic (s : Service) (val : Product) (id : String) :
    (∃ (i : Nat) (found : Bool), s.findIndex id = some (i, found) ∧
      i ≤ s.products.length ∧ (found = true → i < s.products.length)) ∧
    (∃ r, s.Add val = some r) ∧ (∃ r, s.Update val = some r) ∧
    (∃ r, s.Delete id = some r) ∧ (∃ r, s.Get id = some r) ∧
    (∃ r, s.GetAll = some r) :=
  ⟨findIndex_total s id, Add_total s val, Update_total s val, Delete_total s id,
    Get_total s id, ⟨_, GetAll_eq s⟩⟩

/-- Claim C29: in a reachable store, for a generated record `r` whose id does
not occur, `Add` of `r` succeeds, and `Delete` of its id on the resulting store
succeeds and gives back the record sequence from before the `Add`. -/
theorem Delete_undoes_Add (s : Service) (hr : Reachable s) (r : Product)
    (hn : ¬ HasID s.products r.ID) :
    ∃ t : Service, s.Add r = some ((r.ID, none), t) ∧ t.Delete r.ID = some (none, s) := by
  have hs := reachable_sorted hr
  have hts := sorted_insert hs r hn
  refine ⟨_, Add_fresh s r hs hn, ?_⟩
  have hdel := Delete_present
    ⟨s.products.take (lowerBound s.products r.ID)
      ++ r :: s.products.drop (lowerBound s.products r.ID)⟩ r.ID hts
    ⟨r, mem_insert_self _ _ _, rfl⟩
  simp only [lowerBound_insert hs r,
    remove_insert s.products _ (lowerBound_le_length s.products r.ID) r] at hdel
  exact hdel

theorem Delete_undoes_Add_witness :
    Reachable sampleStore ∧ ¬ HasID sampleStore.products cherry.ID ∧
    ∃ t : Service, sampleStore.Add cherry = some ((cherry.ID, none), t) ∧
      t.Delete cherry.ID = some (none, sampleStore) :=
  ⟨sampleStore_reachable, sampleStore_lacks_cherry,
    Delete_undoes_Add sampleStore sampleStore_reachable cherry sampleStore_lacks_cherry⟩

/-- Claim C30: when `ParseProduct` succeeds, the `Product` it returns has a
non-empty name or a non-zero price, so that `Update` of a reachable store with
it returns no error or `ErrorNoRowsUpdated`, never `ErrorNoUpdateParams`; and
an empty id is rejected with the error "invalid id" whatever the name and the
price string are. -/
theorem ParseProduct_then_Update (parseFloat : String → Option Nat)
    (id name priceStr : String) (prod : Product)
    (hparse : Model.ParseProduct parseFloat id name priceStr = (prod, none))
    (s : Service) (hr : Reachable s) :
    (prod.Name ≠ "" ∨ f64IsZero prod.Price = false) ∧
    (∃ (e : Option Error) (t : Service), s.Update prod = some (e, t) ∧
      (e = none ∨ e = some Error.ErrorNoRowsUpdated) ∧
      e ≠ some Error.ErrorNoUpdateParams) ∧
    (∀ n p : String, Model.ParseProduct parseFloat "" n p
      = (⟨"", "", 0, 0⟩, some (GoError.fresh "invalid id"))) := by
  obtain ⟨_, hparams, _⟩ := ParseProduct_ok_params parseFloat id name priceStr prod hparse
  have hs := reachable_sorted hr
  refine ⟨?_, ?_, fun n p => ParseProduct_empty_id parseFloat n p⟩
  · by_cases hname : prod.Name = ""
    · right
      cases hz : f64IsZero prod.Price with
      | false => rfl
      | true => exact absurd ⟨hname, hz⟩ hparams
    · exact Or.inl hname
  · by_cases hh : HasID s.products prod.ID
    · obtain ⟨_, _, hu⟩ := Update_present s prod hs hh
      rw [if_neg hparams] at hu
      exact ⟨none, _, hu, Or.inl rfl, fun hc => by cases hc⟩
    · exact ⟨_, s, Update_absent s prod hs hh, Or.inr rfl, fun hc => by cases hc⟩

theorem ParseProduct_then_Update_witness :
    Model.ParseProduct sampleParseFloat "a1" "" "9.99"
      = (⟨"a1", "", 0x4023FAE147AE147B, 0⟩, none) ∧
    Reachable sampleStore ∧
    (((⟨"a1", "", 0x4023FAE147AE147B, 0⟩ : Product).Name ≠ "" ∨
      f64IsZero (⟨"a1", "", 0x4023FAE147AE147B, 0⟩ : Product).Price = false) ∧
    (∃ (e : Option Error) (t : Service),
      sampleStore.Update ⟨"a1", "", 0x4023FAE147AE147B, 0⟩ = some (e, t) ∧
      (e = none ∨ e = some Error.ErrorNoRowsUpdated) ∧
      e ≠ some Error.ErrorNoUpdateParams) ∧
    (∀ n p : String, Model.ParseProduct sampleParseFloat "" n p
      = (⟨"", "", 0, 0⟩, some (GoError.fresh "invalid id")))) :=
  ⟨rfl, sampleStore_reachable,
    ParseProduct_then_Update sampleParseFloat "a1" "" "9.99" ⟨"a1", "", 0x4023FAE147AE147B, 0⟩
      rfl sampleStore sampleStore_reachable⟩

/-! ## The front-ends on the `in_memory2` store -/

theorem inMemory2_Update_absent (s : Service) (prod : Product) (h : SortedByID s.products)
    (hn : ¬ HasID s.products prod.ID) :
    inMemory2.Update s prod = some (some (GoError.ofError Error.ErrorNoRowsUpdated), s) := by
  simp only [inMemory2, Update_absent s prod h hn, Option.map_some']

theorem inMemory2_Get_absent (s : Service) (id : String) (h : SortedByID s.products)
    (hn : ¬ HasID s.products id) :
    inMemory2.Get s id = some ((Product.zero, some (GoError.ofError Error.ErrNoRows)), s) := by
  simp only [inMemory2, Get_absent s id h hn, Option.map_some']

theorem inMemory2_Delete_absent (s : Service) (id : String) (h : SortedByID s.products)
    (hn : ¬ HasID s.products id) :
    inMemory2.Delete s id = some (some (GoError.ofError Error.ErrorNoRowsDeleted), s) := by
  simp only [inMemory2, Delete_absent s id h hn, Option.map_some']

theorem appleNaN_reachable : Reachable ⟨[appleNaN]⟩ := by
  have h1 : Reachable ⟨[apple]⟩ := ⟨[Op.add apple], rfl⟩
  have h2 : Service.Update ⟨[apple]⟩ ⟨"a1", "", 0x7FF8000000000001, 0⟩
      = some (none, ⟨[appleNaN]⟩) :=
    Update_singleton apple ⟨"a1", "", 0x7FF8000000000001, 0⟩ rfl
      (fun h => absurd h.2 (by decide : ¬ (f64IsZero 0x7FF8000000000001 = true)))
  exact reachable_step h1 (Op.update ⟨"a1", "", 0x7FF8000000000001, 0⟩)
    (by simp only [Service.step, h2, Option.map_some'])

theorem net_http_Update_NaN :
    NetHttp.UpdateProduct sampleQuote sampleParseFloat inMemory2 ⟨[apple]⟩ "a1" "" "NaN"
      = some (NetHttp.sendMessage sampleQuote "Product updated", ⟨[appleNaN]⟩) := by
  have hparse : Model.ParseProduct sampleParseFloat "a1" "" "NaN"
      = (⟨"a1", "", 0x7FF8000000000001, 0⟩, none) := rfl
  have h2 : Service.Update ⟨[apple]⟩ ⟨"a1", "", 0x7FF8000000000001, 0⟩
      = some (none, ⟨[appleNaN]⟩) :=
    Update_singleton apple ⟨"a1", "", 0x7FF8000000000001, 0⟩ rfl
      (fun h => absurd h.2 (by decide : ¬ (f64IsZero 0x7FF8000000000001 = true)))
  simp only [NetHttp.UpdateProduct, hparse, inMemory2, h2, Option.map_some', Option.map_none']

theorem inMemory2_Get_appleNaN :
    inMemory2.Get ⟨[appleNaN]⟩ "a1" = some ((appleNaN, none), ⟨[appleNaN]⟩) := by
  have hg : Service.Get ⟨[appleNaN]⟩ "a1" = some ((appleNaN, none), ⟨[appleNaN]⟩) :=
    Get_singleton appleNaN
  simp only [inMemory2, hg, Option.map_some', Option.map_none']

/-! ## The claims about the front-ends -/

/-- Claim C22, as stated, fails: the record `appleNaN`, left in the store by the
`net_http` `UpdateProduct` with the price string `NaN`, is returned by `Get`
without error, and `GetProduct` answers with status 500, not 200, because
`json.Marshal` rejects the NaN price. -/
theorem net_http_GetProduct_NaN_counterexample :
    NetHttp.UpdateProduct sampleQuote sampleParseFloat inMemory2 ⟨[apple]⟩ "a1" "" "NaN"
      = some (NetHttp.sendMessage sampleQuote "Product updated", ⟨[appleNaN]⟩) ∧
    Reachable ⟨[appleNaN]⟩ ∧
    inMemory2.Get ⟨[appleNaN]⟩ "a1" = some ((appleNaN, none), ⟨[appleNaN]⟩) ∧
    NetHttp.GetProduct sampleQuote (jsonMarshal sampleEncode) inMemory2 ⟨[appleNaN]⟩ "a1"
      = some (⟨500, "\x7b\"error\":\"json: unsupported value: NaN\"\x7d"⟩, ⟨[appleNaN]⟩) := by
  refine ⟨net_http_Update_NaN, appleNaN_reachable, inMemory2_Get_appleNaN, ?_⟩
  simp only [NetHttp.GetProduct, inMemory2_Get_appleNaN]
  rfl

/-- Claim C22, amended: in the `net_http` front-end, a store error of
`UpdateProduct`, `DeleteProduct` and `GetProduct` is answered with the body
`{"error":<quoted message>}` and the status 400 when it is the absent-id error
of the operation (`ErrorNoRowsUpdated`, `ErrorNoRowsDeleted`, `sql.ErrNoRows`),
500 when it is any other error.  Success of the store is answered with status
200 by `UpdateProduct` and `DeleteProduct`, and by `GetProduct` when
`json.Marshal` accepts the record; when it does not, `GetProduct` answers
with status 500 and the error of `json.Marshal`. -/
theorem net_http_status_mapping {σ : Type} (quote : String → String)
    (parseFloat : String → Option Nat) (marshal : Product → Except GoError String)
    (db : DB σ) (s t : σ) (id name price : String) :
    (∀ (prod : Product) (err : GoError),
      Model.ParseProduct parseFloat id name price = (prod, none) →
      db.Update s prod = some (some err, t) →
      NetHttp.UpdateProduct quote parseFloat db s id name price
        = some (⟨if err.isError Error.ErrorNoRowsUpdated then 400 else 500,
            "\x7b\"error\":" ++ quote err.message ++ "\x7d"⟩, t)) ∧
    (∀ prod : Product,
      Model.ParseProduct parseFloat id name price = (prod, none) →
      db.Update s prod = some (none, t) →
      NetHttp.UpdateProduct quote parseFloat db s id name price
        = some (⟨200, "\x7b\"msg\":" ++ quote "Product updated" ++ "\x7d"⟩, t)) ∧
    (∀ err : GoError, db.Delete s id = some (some err, t) →
      NetHttp.DeleteProduct quote db s id
        = some (⟨if err.isError Error.ErrorNoRowsDeleted then 400 else 500,
            "\x7b\"error\":" ++ quote err.message ++ "\x7d"⟩, t)) ∧
    (db.Delete s id = some (none, t) →
      NetHttp.DeleteProduct quote db s id
        = some (⟨200, "\x7b\"msg\":" ++ quote "Product deleted" ++ "\x7d"⟩, t)) ∧
    (∀ (val : Product) (err : GoError), db.Get s id = some ((val, some err), t) →
      NetHttp.GetProduct quote marshal db s id
        = some (⟨if err.isError Error.ErrNoRows then 400 else 500,
            "\x7b\"error\":" ++ quote err.message ++ "\x7d"⟩, t)) ∧
    (∀ (val : Product) (b : String), db.Get s id = some ((val, none), t) →
      marshal val = Except.ok b →
      NetHttp.GetProduct quote marshal db s id = some (⟨200, b⟩, t)) ∧
    (∀ (val : Product) (err : GoError), db.Get s id = some ((val, none), t) →
      marshal val = Except.error err →
      NetHttp.GetProduct quote marshal db s id
        = some (⟨500, "\x7b\"error\":" ++ quote err.message ++ "\x7d"⟩, t)) := by
  refine ⟨?_, ?_, ?_, ?_, ?_, ?_, ?_⟩
  · intro prod err hp hu
    simp only [NetHttp.UpdateProduct, hp, hu, NetHttp.sendError]
  · intro prod hp hu
    simp only [NetHttp.UpdateProduct, hp, hu, NetHttp.sendMessage]
  · intro err hd
    simp only [NetHttp.DeleteProduct, hd, NetHttp.sendError]
  · intro hd
    simp only [NetHttp.DeleteProduct, hd, NetHttp.sendMessage]
  · intro val err hg
    simp only [NetHttp.GetProduct, hg, NetHttp.sendError]
  · intro val b hg hm
    simp only [NetHttp.GetProduct, hg, NetHttp.sendJson, hm]
  · intro val err hg hm
    simp only [NetHttp.GetProduct, hg, NetHttp.sendJson, hm, NetHttp.sendError]

/-- Claim C23 fails on the code: for the id `c3`, which the sample store does
not hold, `Get` returns `sql.ErrNoRows`, and the gRPC `GetProduct` answers with
`codes.Aborted`, not `codes.InvalidArgument`: it compares the error with
`ErrorNoRowsDeleted`. -/
theorem grpc_GetProduct_absent_id_is_Aborted :
    ¬ HasID sampleStore.products "c3" ∧
    inMemory2.Get sampleStore "c3"
      = some ((Product.zero, some (GoError.ofError Error.ErrNoRows)), sampleStore) ∧
    Grpc.GetProduct inMemory2 sampleStore "c3"
      = some (Except.error ⟨Grpc.Code.Aborted, "sql: no rows in result set"⟩, sampleStore) := by
  have hg := inMemory2_Get_absent sampleStore "c3" (reachable_sorted sampleStore_reachable)
    sampleStore_lacks_cherry
  refine ⟨sampleStore_lacks_cherry, hg, ?_⟩
  simp only [Grpc.GetProduct, hg]
  rfl

/-- Claim C24 fails on the code: with the name present but empty and no price,
the `yaml_to_code` `UpdateProduct` on the sample store answers for the id `a1`,
which the store holds, with the 500 response carrying the message of
`ErrorNoUpdateParams`, not with the 400 response; and for the id `123`, which
the store does not hold, with the 400 response carrying the message of
`ErrorNoRowsUpdated`.  With the name and the price both absent it answers with
the 400 response carrying the message of `ErrorNoUpdateParams`. -/
theorem yaml_UpdateProduct_empty_name_is_500 :
    HasID sampleStore.products "a1" ∧
    YamlToCode.UpdateProduct inMemory2 sampleStore "a1" (some "") none
      = some (YamlToCode.UpdateProductResponseObject.UpdateProduct500JSONResponse
          "no parameters were passed to be updated", sampleStore) ∧
    ¬ HasID sampleStore.products "123" ∧
    YamlToCode.UpdateProduct inMemory2 sampleStore "123" (some "") none
      = some (YamlToCode.UpdateProductResponseObject.UpdateProduct400JSONResponse
          "no rows updated", sampleStore) ∧
    "no rows updated" ≠ Error.ErrorNoUpdateParams.message ∧
    YamlToCode.UpdateProduct inMemory2 sampleStore "a1" none none
      = some (YamlToCode.UpdateProductResponseObject.UpdateProduct400JSONResponse
          "no parameters were passed to be updated", sampleStore) := by
  have hs := reachable_sorted sampleStore_reachable
  have h1 := inMemory2_Update_absent sampleStore ⟨"123", "", 0, 0⟩ hs sampleStore_lacks_123
  have h2 : inMemory2.Update sampleStore ⟨"a1", "", 0, 0⟩
      = some (some (GoError.ofError Error.ErrorNoUpdateParams), sampleStore) := by
    simp only [inMemory2, Update_present_no_params sampleStore ⟨"a1", "", 0, 0⟩ hs
      sampleStore_has_apple rfl (by decide), Option.map_some']
  refine ⟨sampleStore_has_apple, ?_, sampleStore_lacks_123, ?_, by decide, ?_⟩
  · simp [YamlToCode.UpdateProduct, h2, GoError.ofError, Error.message]
  · simp [YamlToCode.UpdateProduct, h1, GoError.ofError, Error.message]
  · simp [YamlToCode.UpdateProduct, Error.message]

/-! ## The lock -/

theorem Locked.Add_free (xs : List Product) (val : Product) :
    ∃ (r : String × Option Error) (t : Locked),
      Locked.Add ⟨xs, LockState.free, []⟩ val = some (r, t) ∧ t.mu = LockState.free ∧
      writerLog t.log ∧ Service.Add ⟨xs⟩ val = some (r, ⟨t.products⟩) := by
  obtain ⟨i, found, hf, hle, _⟩ := findIndex_total ⟨xs⟩ val.ID
  have hle2 : i ≤ xs.length := hle
  cases found with
  | true =>
    simp only [Locked.Add, Locked.withLock, Locked.Lock, Locked.findIndex, Locked.read, hf,
      Locked.Unlock, Service.Add]
    exact ⟨_, _, rfl, rfl, ⟨[Event.read], rfl, by simp⟩, rfl⟩
  | false =>
    have h1 : i + 1 ≤ (xs ++ [Product.zero]).length := by
      simp only [List.length_append, List.length_singleton]; omega
    have h2 : i < (List.take (i + 1) (xs ++ [Product.zero])
        ++ copySlice (List.drop (i + 1) (xs ++ [Product.zero]))
          (List.drop i (xs ++ [Product.zero]))).length := by
      simp only [List.length_append, List.length_take, length_copySlice, List.length_drop,
        List.length_singleton]
      omega
    simp only [Locked.Add, Locked.withLock, Locked.Lock, Locked.findIndex, Locked.read, hf,
      Locked.modify, Locked.Unlock, Service.Add, setIndex, if_pos h1, if_pos h2]
    exact ⟨_, _, rfl, rfl,
      ⟨[Event.read, Event.write, Event.write, Event.write], rfl, by simp⟩, rfl⟩

theorem Locked.Update_free (xs : List Product) (val : Product) :
    ∃ (r : Option Error) (t : Locked),
      Locked.Update ⟨xs, LockState.free, []⟩ val = some (r, t) ∧ t.mu = LockState.free ∧
      writerLog t.log ∧ Service.Update ⟨xs⟩ val = some (r, ⟨t.products⟩) := by
  obtain ⟨i, found, hf, _, hlt⟩ := findIndex_total ⟨xs⟩ val.ID
  cases found with
  | false =>
    simp only [Locked.Update, Locked.withLock, Locked.Lock, Locked.findIndex, Locked.read, hf,
      Locked.Unlock, Service.Update]
    exact ⟨_, _, rfl, rfl, ⟨[Event.read], rfl, by simp⟩, rfl⟩
  | true =>
    have hi : i < xs.length := hlt rfl
    simp only [Locked.Update, Locked.withLock, Locked.Lock, Locked.findIndex, Locked.read, hf,
      Locked.modify, Service.Update, setIndex, List.getElem?_eq_getElem hi, if_pos hi,
      Option.map_some']
    by_cases c1 : val.Name ≠ "" ∧ ¬ f64IsZero val.Price = true
    · simp only [if_pos c1, Locked.Unlock]
      exact ⟨_, _, rfl, rfl, ⟨[Event.read, Event.read, Event.write], rfl, by simp⟩, rfl⟩
    · by_cases c2 : ¬ f64IsZero val.Price = true
      · simp only [if_neg c1, if_pos c2, Locked.Unlock]
        exact ⟨_, _, rfl, rfl, ⟨[Event.read, Event.read, Event.write], rfl, by simp⟩, rfl⟩
      · by_cases c3 : val.Name ≠ ""
        · simp only [if_neg c1, if_neg c2, if_pos c3, Locked.Unlock]
          exact ⟨_, _, rfl, rfl, ⟨[Event.read, Event.read, Event.write], rfl, by simp⟩, rfl⟩
        · simp only [if_neg c1, if_neg c2, if_neg c3, Locked.Unlock]
          exact ⟨_, _, rfl, rfl, ⟨[Event.read, Event.read], rfl, by simp⟩, rfl⟩

theorem Locked.Delete_free (xs : List Product) (id : String) :
    ∃ (r : Option Error) (t : Locked),
      Locked.Delete ⟨xs, LockState.free, []⟩ id = some (r, t) ∧ t.mu = LockState.free ∧
      writerLog t.log ∧ Service.Delete ⟨xs⟩ id = some (r, ⟨t.products⟩) := by
  obtain ⟨i, found, hf, _, hlt⟩ := findIndex_total ⟨xs⟩ id
  cases found with
  | false =>
    simp only [Locked.Delete, Locked.withLock, Locked.Lock, Locked.findIndex, Locked.read, hf,
      Locked.Unlock, Service.Delete]
    exact ⟨_, _, rfl, rfl, ⟨[Event.read], rfl, by simp⟩, rfl⟩
  | true =>
    have hi : i + 1 ≤ xs.length := hlt rfl
    simp only [Locked.Delete, Locked.withLock, Locked.Lock, Locked.findIndex, Locked.read, hf,
      Locked.modify, Service.Delete, if_pos hi, Option.map_some', Locked.Unlock]
    exact ⟨_, _, rfl, rfl, ⟨[Event.read, Event.write], rfl, by simp⟩, rfl⟩

theorem Locked.Get_free (xs : List Product) (id : String) :
    ∃ (r : Product × Option Error) (t : Locked),
      Locked.Get ⟨xs, LockState.free, []⟩ id = some (r, t) ∧ t.mu = LockState.free ∧
      readerLog t.log ∧ t.products = xs ∧ Service.Get ⟨xs⟩ id = some (r, ⟨xs⟩) := by
  obtain ⟨i, found, hf, _, hlt⟩ := findIndex_total ⟨xs⟩ id
  cases found with
  | false =>
    simp only [Locked.Get, Locked.withRLock, Locked.RLock, Locked.findIndex, Locked.read, hf,
      Locked.RUnlock, Service.Get]
    exact ⟨_, _, rfl, rfl, ⟨[Event.read], rfl, by simp⟩, rfl, rfl⟩
  | true =>
    have hi : i < xs.length := hlt rfl
    simp only [Locked.Get, Locked.withRLock, Locked.RLock, Locked.findIndex, Locked.read, hf,
      Locked.RUnlock, Service.Get, List.getElem?_eq_getElem hi]
    exact ⟨_, _, rfl, rfl, ⟨[Event.read, Event.read], rfl, by simp⟩, rfl, rfl⟩

theorem Locked.GetAll_free (xs : List Product) :
    ∃ (r : List Product × Option Error) (t : Locked),
      Locked.GetAll ⟨xs, LockState.free, []⟩ = some (r, t) ∧ t.mu = LockState.free ∧
      readerLog t.log ∧ t.products = xs ∧ Service.GetAll ⟨xs⟩ = some (r, ⟨xs⟩) := by
  simp only [Locked.GetAll, Locked.withRLock, Locked.RLock, Locked.read, Locked.RUnlock,
    Service.GetAll]
  exact ⟨_, _, rfl, rfl, ⟨[Event.read, Event.read], rfl, by simp⟩, rfl, rfl⟩

/-- Claim C27: with the lock as explicit state, started on a free lock, `Add`,
`Update` and `Delete` take the lock in exclusive mode and `Get` and `GetAll` in
shared mode before their first access to the record sequence; every read and
write happens between taking and releasing it; on every return path, with or
without an error, the lock is released exactly once, as the last event, and is
free afterwards.  The results are those of the operations without the lock. -/
theorem lock_discipline (xs : List Product) (val : Product) (id : String) :
    (∃ (r : String × Option Error) (t : Locked),
      Locked.Add ⟨xs, LockState.free, []⟩ val = some (r, t) ∧ t.mu = LockState.free ∧
      writerLog t.log ∧ Service.Add ⟨xs⟩ val = some (r, ⟨t.products⟩)) ∧
    (∃ (r : Option Error) (t : Locked),
      Locked.Update ⟨xs, LockState.free, []⟩ val = some (r, t) ∧ t.mu = LockState.free ∧
      writerLog t.log ∧ Service.Update ⟨xs⟩ val = some (r, ⟨t.products⟩)) ∧
    (∃ (r : Option Error) (t : Locked),
      Locked.Delete ⟨xs, LockState.free, []⟩ id = some (r, t) ∧ t.mu = LockState.free ∧
      writerLog t.log ∧ Service.Delete ⟨xs⟩ id = some (r, ⟨t.products⟩)) ∧
    (∃ (r : Product × Option Error) (t : Locked),
      Locked.Get ⟨xs, LockState.free, []⟩ id = some (r, t) ∧ t.mu = LockState.free ∧
      readerLog t.log ∧ t.products = xs ∧ Service.Get ⟨xs⟩ id = some (r, ⟨xs⟩)) ∧
    (∃ (r : List Product × Option Error) (t : Locked),
      Locked.GetAll ⟨xs, LockState.free, []⟩ = some (r, t) ∧ t.mu = LockState.free ∧
      readerLog t.log ∧ t.products = xs ∧ Service.GetAll ⟨xs⟩ = some (r, ⟨xs⟩)) :=
  ⟨Locked.Add_free xs val, Locked.Update_free xs val, Locked.Delete_free xs id,
    Locked.Get_free xs id, Locked.GetAll_free xs⟩

end InMemory2
